import Mathlib

/-!
# Data-Structures: queue, vector and stack over a type-erased byte buffer, and a linked list

A shallow embedding of `src/Queue/main.cpp`, `src/Vector/main.cpp`,
`src/Stack/main.cpp` and `src/List/main.cpp`.

Modelling conventions

* A heap block is a `List Byte`; its length is the number of bytes that were
  requested from the allocator. A pointer into a block is a byte offset.
* `size_t` values are natural numbers. Subtraction wraps modulo `2 ^ 64` as in
  C (`size_sub`), because it can go below zero on small inputs
  (`capacity - 1` at capacity 0).
* In the vector, one call reaches any capacity (`vector_new`, `vector_resize`),
  so the `size_t` sums and products of `vector_new`, `vector_resize` and
  `vector_push` are taken modulo `2 ^ 64` (`SIZE_RANGE`): the byte counts given
  to `malloc` and `realloc`, the capacity `2 * capacity + 1`, the offset of the
  write and the incremented size. The offsets of `vector_set`, `vector_get` and
  `vector_pop` are exact; the theorems on them are about vectors whose block
  has `capacity` slots, where an offset is below the size of the block.
* In the stack, `stack_size` and `stack_capacity` are `int`. The `int` results
  of `stack_realloc` and `stack_push` go through `int_wrap`, their `size_t`
  products are taken modulo `2 ^ 64`, and an `int` becomes a `size_t` by
  `int_to_size`.
* In the queue, sums and products are exact: its capacity starts at 10 and a
  call at most doubles it, so the theorems on the queue are about executions
  in which no `size_t` sum or product overflows.
* The struct pointer and the caller's element buffer are values, so the
  `== NULL` guards of the source have no counterpart; the block pointer of a
  container is never `NULL` after a successful constructor.
* Whether `realloc` succeeds is not decided by the program. Every function that
  may call it takes the outcome as an argument: `none` is a `NULL` result,
  `some fresh` is a success in which `fresh` gives the indeterminate bytes of
  the added part.
* An access outside a block is undefined behaviour in C. `memcpy` and `memset`
  leave the destination as it is in that case, while the index fields of the
  structs are updated exactly as the source updates them; the predicates
  `in_block` say whether an access is inside its block.
-/

set_option autoImplicit false

namespace DataStructures

/-! ## Memory primitives -/

abbrev Byte := Nat

/-- Outcome of one allocator call, chosen by the environment. -/
abbrev Alloc := Option (Nat → Byte)

/-- The number of values of `size_t`, `2 ^ 64`. -/
def SIZE_RANGE : Nat := 18446744073709551616

/-- Subtraction of two `size_t` values, wrapping below zero. -/
def size_sub (a b : Nat) : Nat :=
  if b ≤ a then a - b else SIZE_RANGE - (b - a)

/-- Conversion of an `int` to `size_t`. -/
def int_to_size (i : Int) : Nat :=
  Int.toNat (i % (SIZE_RANGE : Int))

/-- The access of `n` bytes at offset `off` lies inside `block`. -/
def in_block (block : List Byte) (off n : Nat) : Prop :=
  off + n ≤ block.length

instance (block : List Byte) (off n : Nat) : Decidable (in_block block off n) :=
  inferInstanceAs (Decidable (off + n ≤ block.length))

/-- The C library call `calloc(count, width)`: a zero-filled block. -/
def calloc (count width : Nat) : List Byte :=
  List.replicate (count * width) 0

/-- The C library call `malloc(n)`: a block of `n` indeterminate bytes. -/
def malloc (n : Nat) (fresh : Nat → Byte) : List Byte :=
  (List.range n).map fresh

/-- The C library call `realloc(block, n)`: on success the first
`min n block.length` bytes are kept and the rest is indeterminate. -/
def realloc (block : List Byte) (n : Nat) : Alloc → Option (List Byte)
  | none => none
  | some fresh => some (block.take n ++ (List.range (n - block.length)).map fresh)

/-- The C library call `memcpy(dst + dstOff, src + srcOff, n)`; the result is the
destination block. -/
def memcpy (dst : List Byte) (dstOff : Nat) (src : List Byte) (srcOff n : Nat) : List Byte :=
  if in_block src srcOff n ∧ in_block dst dstOff n then
    dst.take dstOff ++ (src.drop srcOff).take n ++ dst.drop (dstOff + n)
  else dst

/-- The C library call `memmove(block + dstOff, block + srcOff, n)` inside one
block; the source bytes are read before any byte is written. -/
def memmove (block : List Byte) (dstOff srcOff n : Nat) : List Byte :=
  memcpy block dstOff block srcOff n

/-- The C library call `memset(dst + off, value, n)`. -/
def memset (dst : List Byte) (off : Nat) (value : Byte) (n : Nat) : List Byte :=
  if in_block dst off n then
    dst.take off ++ List.replicate n value ++ dst.drop (off + n)
  else dst

/-- The element stored in slot `i` of a block of `width`-byte slots. -/
def slot (block : List Byte) (width i : Nat) : List Byte :=
  (block.drop (width * i)).take width

/-! ## Queue (`src/Queue/main.cpp`) -/

structure queue where
  data : List Byte
  elem_size : Nat
  size : Nat
  capacity : Nat
  headIdx : Nat
  tailIdx : Nat
deriving DecidableEq

def DEFAULT_QUEUE_CAPACITY : Nat := 10

def queue_new (elem_size : Nat) : queue :=
  { data := calloc DEFAULT_QUEUE_CAPACITY elem_size
    elem_size := elem_size
    size := 0
    capacity := DEFAULT_QUEUE_CAPACITY
    headIdx := 0
    tailIdx := 0 }

/-- Returns the return code and the queue after the call. -/
def queue_reallocation (q : queue) (new_queue_capacity : Nat) (alloc : Alloc) : Nat × queue :=
  match realloc q.data (new_queue_capacity * q.elem_size) alloc with
  | none => (1, q)
  | some tmpData => (0, { q with data := tmpData, capacity := new_queue_capacity })

/-- Returns the return code and the queue after the call. -/
def queue_push (q : queue) (elem : List Byte) (alloc : Alloc) : Nat × queue :=
  if q.size > q.capacity then (1, q)
  else
    let r : Nat × queue :=
      if q.size = size_sub q.capacity 1 then
        queue_reallocation q (2 * q.capacity + 1) alloc
      else (0, q)
    if r.1 ≠ 0 then (1, r.2)
    else
      let q1 := r.2
      (0, { q1 with
              data := memcpy q1.data (q1.elem_size * q1.headIdx) elem 0 q1.elem_size
              size := q1.size + 1
              headIdx := q1.headIdx + 1 })

/-- Returns the return code, the queue after the call and the caller's buffer
`elem` after the call. -/
def queue_pop (q : queue) (elem : List Byte) (alloc : Alloc) : Nat × queue × List Byte :=
  if q.size = 0 then (1, q, elem)
  else
    let r : Nat × queue :=
      if q.size ≤ q.capacity / 2 + (q.capacity &&& 1) then
        let q1 : queue :=
          { q with
              data := memmove q.data 0 (q.elem_size * q.tailIdx)
                        (q.elem_size * size_sub q.headIdx q.tailIdx)
              headIdx := size_sub q.headIdx q.tailIdx
              tailIdx := 0 }
        queue_reallocation q1 (q1.capacity / 2 + (q1.capacity &&& 1)) alloc
      else (0, q)
    if r.1 ≠ 0 then (1, r.2, elem)
    else
      let q1 := r.2
      (0, { q1 with tailIdx := q1.tailIdx + 1, size := q1.size - 1 },
        memcpy elem 0 q1.data (q1.elem_size * q1.tailIdx) q1.elem_size)

def queue_empty (q : queue) : Bool :=
  q.size = 0

/-- One call of the queue interface, with the allocator outcome it meets. -/
inductive queue_call where
  | push (elem : List Byte) (alloc : Alloc)
  | pop (elem : List Byte) (alloc : Alloc)

/-- The queue after one call. -/
def queue_step (q : queue) : queue_call → queue
  | .push elem alloc => (queue_push q elem alloc).2
  | .pop elem alloc => (queue_pop q elem alloc).2.1

/-- The queue after a sequence of calls, first call first. -/
def queue_run (q : queue) (calls : List queue_call) : queue :=
  calls.foldl queue_step q

/-- The allocator outcome a call meets. -/
def queue_call.outcome : queue_call → Alloc
  | .push _ alloc => alloc
  | .pop _ alloc => alloc

/-- The allocator never fails during the calls. -/
def queue_allocs_succeed (calls : List queue_call) : Prop :=
  ∀ c ∈ calls, (queue_call.outcome c).isSome = true

instance (calls : List queue_call) : Decidable (queue_allocs_succeed calls) :=
  inferInstanceAs (Decidable (∀ c ∈ calls, (queue_call.outcome c).isSome = true))

/-- The elements of the live window `[tailIdx, headIdx)`, oldest first. -/
def queue_live (q : queue) : List (List Byte) :=
  (List.range (q.headIdx - q.tailIdx)).map (fun i => slot q.data q.elem_size (q.tailIdx + i))

/-- Reference first-in-first-out queue, following the specification's words: a
push appends its element, a pop removes the oldest element. -/
def fifo_step (ref : List (List Byte)) : queue_call → List (List Byte)
  | .push elem _ => ref ++ [elem]
  | .pop _ _ => ref.tail

/-- The contents of the reference queue after a sequence of calls. -/
def fifo_run (ref : List (List Byte)) (calls : List queue_call) : List (List Byte) :=
  calls.foldl fifo_step ref

/-- An allocator outcome that succeeds and hands out zero bytes. -/
def zeroed : Alloc := some (fun _ => 0)

/-- Eight calls on a new queue of one-byte elements: push 1, pop, push 2, 3, 4, 5,
pop, push 6. -/
def overrun_calls : List queue_call :=
  [.push [1] zeroed, .pop [0] zeroed, .push [2] zeroed, .push [3] zeroed,
   .push [4] zeroed, .push [5] zeroed, .pop [0] zeroed, .push [6] zeroed]

/-! ## Vector (`src/Vector/main.cpp`) -/

structure vector where
  elems : List Byte
  elem_size : Nat
  size : Nat
  capacity : Nat
deriving DecidableEq

/-- The block comes from `malloc`, so its bytes are indeterminate: `fresh`.
The byte count `elem_size * elems` is a `size_t` product. -/
def vector_new (elems elem_size : Nat) (fresh : Nat → Byte) : vector :=
  { elems := malloc ((elem_size * elems) % SIZE_RANGE) fresh
    elem_size := elem_size
    size := elems
    capacity := elems }

/-- Returns the return code and the vector after the call. The byte count
`new_size * elem_size` is a `size_t` product. -/
def vector_resize (v : vector) (new_size : Nat) (alloc : Alloc) : Nat × vector :=
  if new_size > v.capacity then
    match realloc v.elems ((new_size * v.elem_size) % SIZE_RANGE) alloc with
    | none => (1, v)
    | some new_data_location =>
        (0, { v with elems := new_data_location, capacity := new_size, size := new_size })
  else (0, { v with size := new_size })

/-- Returns the return code and the vector after the call. -/
def vector_set (v : vector) (index : Nat) (elem : List Byte) : Nat × vector :=
  if index ≥ v.size then (1, v)
  else (0, { v with elems := memcpy v.elems (v.elem_size * index) elem 0 v.elem_size })

/-- Returns the return code and the caller's buffer `elem` after the call. -/
def vector_get (v : vector) (index : Nat) (elem : List Byte) : Nat × List Byte :=
  if index ≥ v.size then (1, elem)
  else (0, memcpy elem 0 v.elems (index * v.elem_size) v.elem_size)

/-- Returns the return code and the vector after the call. The new capacity
`2 * capacity + 1`, the byte count of the new block, the offset of the write
and the incremented size are computed in `size_t`. -/
def vector_push (v : vector) (elem : List Byte) (alloc : Alloc) : Nat × vector :=
  let r : Nat × vector :=
    if v.size = v.capacity then
      match realloc v.elems (((2 * v.capacity + 1) * v.elem_size) % SIZE_RANGE) alloc with
      | none => (1, v)
      | some new_data_location =>
          (0, { v with elems := new_data_location
                       capacity := (2 * v.capacity + 1) % SIZE_RANGE })
    else (0, v)
  if r.1 ≠ 0 then (1, r.2)
  else
    let v1 := r.2
    (0, { v1 with
            elems := memcpy v1.elems ((v1.size * v1.elem_size) % SIZE_RANGE) elem 0 v1.elem_size
            size := (v1.size + 1) % SIZE_RANGE })

/-- Returns the return code, the vector after the call and the caller's buffer
`elem` after the call. The return code of the inner `vector_resize` is
dropped, as in the source. -/
def vector_pop (v : vector) (elem : List Byte) (alloc : Alloc) : Nat × vector × List Byte :=
  if v.size = 0 then (1, v, elem)
  else
    let v1 : vector := { v with size := v.size - 1 }
    let out := memcpy elem 0 v1.elems (v1.elem_size * v1.size) v1.elem_size
    let v2 : vector := { v1 with elems := memset v1.elems (v1.elem_size * v1.size) 0 v1.elem_size }
    let v3 : vector := if 2 * v2.size ≤ v2.capacity then (vector_resize v2 v2.size alloc).2 else v2
    (0, v3, out)

def vector_size (v : vector) : Nat :=
  v.size

def vector_empty (v : vector) : Bool :=
  v.size = 0

/-- One call of the vector interface, with the allocator outcome it meets. -/
inductive vector_call where
  | push (elem : List Byte) (alloc : Alloc)
  | pop (elem : List Byte) (alloc : Alloc)
  | set (index : Nat) (elem : List Byte)
  | get (index : Nat) (elem : List Byte)
  | resize (new_size : Nat) (alloc : Alloc)

/-- The vector after one call. -/
def vector_step (v : vector) : vector_call → vector
  | .push elem alloc => (vector_push v elem alloc).2
  | .pop elem alloc => (vector_pop v elem alloc).2.1
  | .set index elem => (vector_set v index elem).2
  | .get _ _ => v
  | .resize new_size alloc => (vector_resize v new_size alloc).2

/-- The vector after a sequence of calls, first call first. -/
def vector_run (v : vector) (calls : List vector_call) : vector :=
  calls.foldl vector_step v

/-! ## Stack (`src/Stack/main.cpp`) -/

structure stack where
  elems : List Byte
  elem_size : Nat
  stack_size : Int
  stack_capacity : Int
deriving DecidableEq

def MIN_STACK_CAPACITY : Nat := 10

/-- The assertion `elem_size > 0` aborts the program: `none`. -/
def stack_new (elem_size : Nat) : Option stack :=
  if elem_size > 0 then
    some { elems := calloc MIN_STACK_CAPACITY elem_size
           elem_size := elem_size
           stack_capacity := (MIN_STACK_CAPACITY : Int)
           stack_size := 0 }
  else none

/-- The byte offset `beginning` that `stack_top` computes: the `int`
`stack_size - 1` is converted to `size_t` and multiplied modulo `2 ^ 64`. -/
def stack_top_beginning (st : stack) : Nat :=
  (int_to_size (st.stack_size - 1) * st.elem_size) % SIZE_RANGE

/-- Returns the return code, the stack after the call and the caller's buffer
`elem` after the call. -/
def stack_top (st : stack) (elem : List Byte) : Nat × stack × List Byte :=
  let beginning := stack_top_beginning st
  (0, st, memcpy elem 0 st.elems beginning st.elem_size)

def stack_empty (st : stack) : Bool :=
  st.stack_size = 0

/-! ## Invariants and example states -/

/-- The invariant of the size and capacity fields that every call keeps. -/
def queue_inv (q : queue) : Prop :=
  q.size < q.capacity ∧ (q.capacity ≤ 10 ∨ q.capacity ≤ 2 * q.size + 1)

/-- The block of the queue has the size the queue asked the allocator for. -/
def queue_wf (q : queue) : Prop :=
  q.data.length = q.capacity * q.elem_size

instance (q : queue) : Decidable (queue_wf q) :=
  inferInstanceAs (Decidable (q.data.length = q.capacity * q.elem_size))

/-- The block of the vector has the size the vector asked the allocator for. -/
def vector_wf (v : vector) : Prop :=
  v.elems.length = v.capacity * v.elem_size

instance (v : vector) : Decidable (vector_wf v) :=
  inferInstanceAs (Decidable (v.elems.length = v.capacity * v.elem_size))

/-- The capacity of the vector and the byte size of a block of `capacity` slots
are values of `size_t`. -/
def vector_fits (v : vector) : Prop :=
  v.capacity < SIZE_RANGE ∧ v.capacity * v.elem_size < SIZE_RANGE

instance (v : vector) : Decidable (vector_fits v) :=
  inferInstanceAs (Decidable (v.capacity < SIZE_RANGE ∧ v.capacity * v.elem_size < SIZE_RANGE))

/-- The capacity `2 * capacity + 1` that a growth of the vector computes and the
byte size of a block of that many slots are values of `size_t`. -/
def vector_growth_fits (v : vector) : Prop :=
  2 * v.capacity + 1 < SIZE_RANGE ∧ (2 * v.capacity + 1) * v.elem_size < SIZE_RANGE

instance (v : vector) : Decidable (vector_growth_fits v) :=
  inferInstanceAs
    (Decidable (2 * v.capacity + 1 < SIZE_RANGE ∧ (2 * v.capacity + 1) * v.elem_size < SIZE_RANGE))

/-- In the sequence of calls made on the vector `v`, every push that finds the
vector full finds a capacity whose growth `2 * capacity + 1` is a value of
`size_t`. -/
def vector_growths_fit (v : vector) : List vector_call → Bool
  | [] => true
  | .push elem alloc :: calls =>
      decide (v.size = v.capacity → 2 * v.capacity + 1 < SIZE_RANGE) &&
        vector_growths_fit (vector_push v elem alloc).2 calls
  | c :: calls => vector_growths_fit (vector_step v c) calls

/-- The vector that `vector_new(2 ^ 63 + 1, 2)` makes: the byte count
`2 * (2 ^ 63 + 1)` is 2 in `size_t`, so the block has two bytes. -/
def huge_vector : vector :=
  vector_new 9223372036854775809 2 (fun _ => 0)

/-- A full vector of the ten four-byte elements 0 to 9. -/
def ten_ints : vector :=
  { elems := [0, 0, 0, 0, 1, 0, 0, 0, 2, 0, 0, 0, 3, 0, 0, 0, 4, 0, 0, 0,
              5, 0, 0, 0, 6, 0, 0, 0, 7, 0, 0, 0, 8, 0, 0, 0, 9, 0, 0, 0]
    elem_size := 4
    size := 10
    capacity := 10 }

/-- Two calls on a new queue of one-byte elements: push 1, pop. -/
def halving_calls : List queue_call :=
  [.push [1] zeroed, .pop [0] zeroed]

/-- Three calls on a new queue of one-byte elements: push 1, pop, push 2. The
queue they leave has one element, in slot 1. -/
def offset_calls : List queue_call :=
  [.push [1] zeroed, .pop [0] zeroed, .push [2] zeroed]

/-- A vector of two one-byte elements, both 7. -/
def two_sevens : vector :=
  vector_new 2 1 (fun _ => 7)

/-- The queue after one push on a new queue of one-byte elements. -/
def single_queue : queue :=
  queue_run (queue_new 1) [.push [1] zeroed]

/-- The queue after `offset_calls`: one element, stored in slot 1. -/
def offset_queue : queue :=
  queue_run (queue_new 1) offset_calls

/-- A queue of four-byte elements holding 7 and 9 in slots 1 and 2 of five. -/
def shifted_queue : queue :=
  { data := [0, 0, 0, 0, 7, 0, 0, 0, 9, 0, 0, 0, 0, 0, 0, 0, 0, 0, 0, 0]
    elem_size := 4
    size := 2
    capacity := 5
    headIdx := 3
    tailIdx := 1 }

/-- A full vector of two two-byte elements. -/
def full_vector : vector :=
  { elems := [1, 2, 3, 4], elem_size := 2, size := 2, capacity := 2 }

/-- The stack that `stack_new` makes for eight-byte elements. -/
def new_stack : stack :=
  { elems := calloc MIN_STACK_CAPACITY 8
    elem_size := 8
    stack_size := 0
    stack_capacity := (MIN_STACK_CAPACITY : Int) }

/-- A vector of two-byte elements holding three elements in four slots. -/
def three_vector : vector :=
  { elems := [1, 2, 3, 4, 5, 6, 0, 0], elem_size := 2, size := 3, capacity := 4 }

/-- An element of 37 bytes: 0, 1, ..., 36. -/
def wide_elem : List Byte :=
  List.range 37

/-- A full vector of one 37-byte element. -/
def wide_vector : vector :=
  { elems := List.replicate 37 9, elem_size := 37, size := 1, capacity := 1 }

/-- The queue after the first seven of `overrun_calls`: size 3, capacity 5,
tail index 2, head index 5. -/
def overrun_queue : queue :=
  queue_run (queue_new 1) (overrun_calls.take 7)

/-- The return code of every call of a sequence, first call first, with the
caller's buffer after the call (for a push: the element pushed). -/
def queue_trace (q : queue) : List queue_call → List (Nat × List Byte)
  | [] => []
  | .push elem alloc :: calls =>
      ((queue_push q elem alloc).1, elem) :: queue_trace (queue_push q elem alloc).2 calls
  | .pop elem alloc :: calls =>
      ((queue_pop q elem alloc).1, (queue_pop q elem alloc).2.2) ::
        queue_trace (queue_pop q elem alloc).2.1 calls

/-- The four bytes of a small `int`, low byte first. -/
def int_elem (i : Nat) : List Byte :=
  [i, 0, 0, 0]

/-- The pushes of `main` in `src/Queue/main.cpp`: the values 0 to 11. -/
def scenario_pushes (fresh : Nat → Byte) : List queue_call :=
  (List.range 12).map (fun i => queue_call.push (int_elem i) (some fresh))

/-- A run of `count` pops into a zeroed buffer. -/
def scenario_pops (count : Nat) (fresh : Nat → Byte) : List queue_call :=
  List.replicate count (queue_call.pop (int_elem 0) (some fresh))

/-! ## Stack: push and pop -/

inductive STACK_ERRORS where
  | NO_ERRORS
  | NULL_PTR_IS_PASSED
  | BAD_STD_FUNC_RESULT
  | STACK_REALLOCATION_ERROR
deriving DecidableEq

def REALLOC_COEFF : Int := 2

/-- The largest value of `int`. -/
def INT_MAX : Nat := 2147483647

/-- The value of an `int` expression whose mathematical result is `i`: `i`
itself when it is in the range of `int`. Outside the range the behaviour is
undefined in C; the model takes the value that two's-complement arithmetic
on 32 bits delivers. -/
def int_wrap (i : Int) : Int :=
  (i + 2147483648) % 4294967296 - 2147483648

/-- Returns the error code and the stack after the call; on a failed
reallocation the source frees the stack with `stack_delete`, so there is no
stack after the call: `none`. The product `REALLOC_COEFF * stack_capacity` is
an `int` product; its conversion to `size_t` is multiplied by `elem_size` in
`size_t`. -/
def stack_realloc (st : stack) (alloc : Alloc) : STACK_ERRORS × Option stack :=
  match realloc st.elems
      ((int_to_size (int_wrap (REALLOC_COEFF * st.stack_capacity)) * st.elem_size) % SIZE_RANGE)
      alloc with
  | none => (.STACK_REALLOCATION_ERROR, none)
  | some temp =>
      (.NO_ERRORS,
        some { st with elems := temp
                       stack_capacity := int_wrap (REALLOC_COEFF * st.stack_capacity) })

/-- Returns the return code and the stack after the call, `none` when the
call has freed it. The offset of the write is the `size_t` product of the
converted `stack_size` and `elem_size`; the increment is an `int` sum. -/
def stack_push (st : stack) (elem : List Byte) (alloc : Alloc) : Nat × Option stack :=
  let r : STACK_ERRORS × Option stack :=
    if st.stack_size = st.stack_capacity then stack_realloc st alloc
    else (.NO_ERRORS, some st)
  match r with
  | (.NO_ERRORS, some st1) =>
      (0, some { st1 with
                   elems := memcpy st1.elems
                              ((int_to_size st1.stack_size * st1.elem_size) % SIZE_RANGE) elem 0
                              st1.elem_size
                   stack_size := int_wrap (st1.stack_size + 1) })
  | (_, st1) => (1, st1)

/-- Returns the return code, the stack after the call and the caller's buffer
`elem` after the call. The offset `beginning` is the expression of
`stack_top`. -/
def stack_pop (st : stack) (elem : List Byte) : Nat × stack × List Byte :=
  if st.stack_size = 0 then (1, st, elem)
  else
    let beginning := stack_top_beginning st
    (0, { st with
            elems := memset st.elems beginning 0 st.elem_size
            stack_size := st.stack_size - 1 },
      memcpy elem 0 st.elems beginning st.elem_size)

/-- The stack after a sequence of pushes whose allocations all succeed: each
push comes with the bytes the allocator hands out if it is asked. The result
is `none` if the stack has been freed on the way. -/
def stack_pushes (st : stack) : List (List Byte × (Nat → Byte)) → Option stack
  | [] => some st
  | x :: rest =>
      match (stack_push st x.1 (some x.2)).2 with
      | none => none
      | some st1 => stack_pushes st1 rest

/-- The stack holds the elements `xs`, bottom first, in its first slots: the
size is their number, the capacity `cap` is positive and not below it, the
block has `cap` slots. -/
def stack_holds (st : stack) (width cap : Nat) (xs : List (List Byte)) : Prop :=
  st.elem_size = width ∧ st.stack_size = (xs.length : Int) ∧ st.stack_capacity = (cap : Int) ∧
  0 < cap ∧ xs.length ≤ cap ∧ st.elems.length = cap * width ∧
  ∀ i, i < xs.length → slot st.elems width i = xs.getD i []

/-- The pushes of `main` in `src/Stack/main.cpp`: the squares of 0 to 9, one
byte of value and seven zero bytes each. -/
def squares : List (List Byte × (Nat → Byte)) :=
  (List.range 10).map (fun i => ([i * i, 0, 0, 0, 0, 0, 0, 0], fun _ => 0))

/-! ## List (`src/List/main.cpp`)

A `struct list *` is modelled by the chain of nodes it heads, which ends in
`NULL`: a chain with a cycle has no counterpart. `free` has no effect on the
values and is left out. -/

inductive list where
  | NULL
  | node (data : Int) (next_node : list)
deriving DecidableEq

def list_new (elem : Int) : list :=
  .node elem .NULL

/-- The `while` loop of `list_insert`, at a node with the fields `data` and
`next_node`: it follows `next_node` to the last node and links the new node
there. The result is the chain from that node on. -/
def list_insert_walk (elem : Int) : Int → list → list
  | data, .NULL => .node data (list_new elem)
  | data, .node data1 next1 => .node data (list_insert_walk elem data1 next1)

def list_insert : list → Int → list
  | .NULL, elem => list_new elem
  | .node data next_node, elem => list_insert_walk elem data next_node

/-- The node found, as the chain it heads; `NULL` when there is none. -/
def list_find : list → Int → list
  | .NULL, _ => .NULL
  | .node data next_node, elem =>
      if data = elem then .node data next_node else list_find next_node elem

/-- The `while` loop of `list_erase`, at a node with the fields `data` and
`next_node`: it unlinks the first later node whose data is `elem`. The result
is the chain from that node on. -/
def list_erase_walk (elem : Int) : Int → list → list
  | data, .NULL => .node data .NULL
  | data, .node data1 next1 =>
      if data1 = elem then .node data next1
      else .node data (list_erase_walk elem data1 next1)

def list_erase : list → Int → list
  | .NULL, _ => .NULL
  | .node data next_node, elem =>
      if data = elem then next_node else list_erase_walk elem data next_node

/-- The values of the nodes of a chain, first node first. -/
def list_values : list → List Int
  | .NULL => []
  | .node data next_node => data :: list_values next_node

/-- The list that `main` of `src/List/main.cpp` builds: 0, 1, 2, 35, 4. -/
def main_list : list :=
  list_insert (list_insert (list_insert (list_insert (list_new 0) 1) 2) 35) 4

/-! ## Element copies made by reallocation and by recentering -/

/-- The elements that a `realloc` from `old_capacity` to `new_capacity` slots
carries over to the new block: the slots that both blocks have. -/
def realloc_copies (old_capacity new_capacity : Nat) : Nat :=
  min old_capacity new_capacity

/-- The elements copied by one `queue_push`: those of the growth reallocation,
when there is one and it succeeds. -/
def queue_push_copies (q : queue) (alloc : Alloc) : Nat :=
  if q.size > q.capacity then 0
  else if q.size = size_sub q.capacity 1 ∧ alloc.isSome = true then
    realloc_copies q.capacity (2 * q.capacity + 1)
  else 0

/-- The elements moved by the `memmove` of one `queue_pop`: `headIdx - tailIdx`
elements when the pop recenters. -/
def queue_pop_moves (q : queue) : Nat :=
  if q.size = 0 then 0
  else if q.size ≤ q.capacity / 2 + (q.capacity &&& 1) then size_sub q.headIdx q.tailIdx
  else 0

/-- The elements copied by one `queue_pop`: those of the `memmove` and those of
the shrink reallocation, when it succeeds. -/
def queue_pop_copies (q : queue) (alloc : Alloc) : Nat :=
  queue_pop_moves q +
    (if q.size ≠ 0 ∧ q.size ≤ q.capacity / 2 + (q.capacity &&& 1) ∧ alloc.isSome = true then
      realloc_copies q.capacity (q.capacity / 2 + (q.capacity &&& 1))
    else 0)

/-- The elements copied by one call on the queue `q`. -/
def queue_call_copies (q : queue) : queue_call → Nat
  | .push _ alloc => queue_push_copies q alloc
  | .pop _ alloc => queue_pop_copies q alloc

/-- The elements copied by a sequence of calls that starts on the queue `q`. -/
def queue_copies (q : queue) : List queue_call → Nat
  | [] => 0
  | c :: calls => queue_call_copies q c + queue_copies (queue_step q c) calls

/-- The elements copied by one `vector_resize`: those of its reallocation, when
there is one and it succeeds. -/
def vector_resize_copies (v : vector) (new_size : Nat) (alloc : Alloc) : Nat :=
  if new_size > v.capacity ∧ alloc.isSome = true then realloc_copies v.capacity new_size else 0

/-- The elements copied by one `vector_push`; the new capacity is the one
`vector_push` computes in `size_t`. -/
def vector_push_copies (v : vector) (alloc : Alloc) : Nat :=
  if v.size = v.capacity ∧ alloc.isSome = true then
    realloc_copies v.capacity ((2 * v.capacity + 1) % SIZE_RANGE)
  else 0

/-- The elements copied by one `vector_pop`: those of its inner
`vector_resize`, which is called with the decremented size. -/
def vector_pop_copies (v : vector) (alloc : Alloc) : Nat :=
  if v.size = 0 then 0
  else if 2 * (v.size - 1) ≤ v.capacity then
    vector_resize_copies { v with size := v.size - 1 } (v.size - 1) alloc
  else 0

/-- The elements copied by one call on the vector `v`. -/
def vector_call_copies (v : vector) : vector_call → Nat
  | .push _ alloc => vector_push_copies v alloc
  | .pop _ alloc => vector_pop_copies v alloc
  | .set _ _ => 0
  | .get _ _ => 0
  | .resize new_size alloc => vector_resize_copies v new_size alloc

/-- The elements copied by a sequence of calls that starts on the vector `v`. -/
def vector_copies (v : vector) : List vector_call → Nat
  | [] => 0
  | c :: calls => vector_call_copies v c + vector_copies (vector_step v c) calls

/-- The call is a `vector_push` or a `vector_pop`. -/
def vector_call.push_or_pop : vector_call → Bool
  | .push _ _ => true
  | .pop _ _ => true
  | _ => false

/-- One round of three calls on a queue of one-byte elements: push, push, pop. -/
def thrash_round : List queue_call :=
  [.push [0] zeroed, .push [0] zeroed, .pop [0] zeroed]

/-- A number of rounds of push, push, pop. -/
def thrash_rounds : Nat → List queue_call
  | 0 => []
  | m + 1 => thrash_round ++ thrash_rounds m

/-- Five calls that take a new queue to size 3 and capacity 5, followed by
rounds of push, push, pop. -/
def thrash_calls (m : Nat) : List queue_call :=
  [.push [0] zeroed, .pop [0] zeroed, .push [0] zeroed, .push [0] zeroed, .push [0] zeroed] ++
    thrash_rounds m

/-- The queue has size `s`, capacity `s + 2`, tail index 1 and head index
`s + 1`. -/
def thrash_shape (q : queue) (s : Nat) : Prop :=
  q.size = s ∧ q.capacity = s + 2 ∧ q.tailIdx = 1 ∧ q.headIdx = s + 1

/-- A lower bound of the elements moved by `m` rounds that start at size `s`:
the round at size `s` moves `s + 2` elements and leaves size `s + 1`. -/
def thrash_moves : Nat → Nat → Nat
  | 0, _ => 0
  | m + 1, s => (s + 2) + thrash_moves m (s + 1)

/-- The index fields of the queue are in step with its size, and the size is
at most `k`. -/
def queue_window_inv (q : queue) (k : Nat) : Prop :=
  q.tailIdx ≤ q.headIdx ∧ q.size = q.headIdx - q.tailIdx ∧ q.size ≤ k

/-! ## Renaming of bytes

The containers copy bytes and never look at them, so a run commutes with any
renaming `g` of the byte values. This carries a run that was evaluated with
recognisable allocator bytes over to every choice of allocator bytes. -/

/-- The queue with every byte of its block renamed by `g`. -/
def queue_map (g : Byte → Byte) (q : queue) : queue :=
  { q with data := q.data.map g }

/-- The call with every byte of its element or buffer, and every byte the
allocator hands out, renamed by `g`. -/
def queue_call.rename (g : Byte → Byte) : queue_call → queue_call
  | .push elem alloc => .push (elem.map g) (alloc.map (fun fresh i => g (fresh i)))
  | .pop elem alloc => .pop (elem.map g) (alloc.map (fun fresh i => g (fresh i)))

/-- Allocator bytes that no element contains: byte `i` of an added part is
`256 + i`. -/
def tagged (i : Nat) : Byte :=
  256 + i

/-- The renaming that keeps the values below 256 and turns `256 + i` into
`fresh i`. -/
def untag (fresh : Nat → Byte) (b : Byte) : Byte :=
  if b < 256 then b else fresh (b - 256)

/-- Fourteen calls on a new queue of one-byte elements: push, pop, four pushes,
pop, three rounds of push and pop, push. The queue they leave has size 4,
capacity 5, tail index 5 and head index 9. -/
def drift_calls : List queue_call :=
  [.push [1] zeroed, .pop [0] zeroed, .push [2] zeroed, .push [3] zeroed, .push [4] zeroed,
   .push [5] zeroed, .pop [0] zeroed, .push [6] zeroed, .pop [0] zeroed, .push [7] zeroed,
   .pop [0] zeroed, .push [8] zeroed, .pop [0] zeroed, .push [9] zeroed]

/-- The queue after `drift_calls`. -/
def drift_queue : queue :=
  queue_run (queue_new 1) drift_calls

/-- The queue after `overrun_calls` and one more pop: size 3, capacity 5, tail
index 3, head index 6. -/
def late_queue : queue :=
  queue_run (queue_new 1) (overrun_calls ++ [.pop [0] zeroed])

/-! ## Arithmetic of the capacity policy -/

theorem ceil_half (c : Nat) : c / 2 + (c &&& 1) = (c + 1) / 2 := by
  rw [Nat.and_one_is_mod]
  omega

/-! ## Slots of a block under the memory primitives -/

theorem slot_append_left (a b : List Byte) (width i : Nat) (h : width * i + width ≤ a.length) :
    slot (a ++ b) width i = slot a width i := by
  unfold slot
  rw [List.drop_append_of_le_length (by omega), List.take_append_of_le_length]
  rw [List.length_drop]; omega

theorem slot_take (a : List Byte) (n width i : Nat) (h : width * i + width ≤ n) :
    slot (a.take n) width i = slot a width i := by
  unfold slot
  rw [List.drop_take, List.take_take]
  congr 1
  omega

theorem slot_append_right (a b : List Byte) (width i : Nat) (h : a.length = width * i) :
    slot (a ++ b) width i = b.take width := by
  unfold slot
  rw [List.drop_left' h]

theorem slot_drop (a : List Byte) (width i k : Nat) :
    slot (a.drop (width * k)) width i = slot a width (k + i) := by
  unfold slot
  rw [List.drop_drop]
  congr 2
  ring

theorem slot_end_le (width i n : Nat) (h : i < n) : width * i + width ≤ width * n := by
  have h1 := Nat.mul_le_mul_left width (Nat.succ_le_of_lt h)
  rw [Nat.mul_succ] at h1
  exact h1

theorem memcpy_length (dst : List Byte) (dstOff : Nat) (src : List Byte) (srcOff n : Nat) :
    (memcpy dst dstOff src srcOff n).length = dst.length := by
  unfold memcpy in_block
  split_ifs with h
  · simp only [List.length_append, List.length_take, List.length_drop]
    omega
  · rfl

theorem slot_memcpy_at (dst elem : List Byte) (width i : Nat)
    (h : width * i + width ≤ dst.length) (he : elem.length = width) :
    slot (memcpy dst (width * i) elem 0 width) width i = elem := by
  unfold memcpy in_block
  rw [if_pos ⟨by omega, h⟩, List.append_assoc, slot_append_right]
  · rw [List.drop_zero, List.take_of_length_le (Nat.le_of_eq he), List.take_left' he]
  · rw [List.length_take]; omega

theorem slot_memcpy_below (dst src : List Byte) (srcOff n width i j : Nat) (h : j < i) :
    slot (memcpy dst (width * i) src srcOff n) width j = slot dst width j := by
  have hj := slot_end_le width j i h
  unfold memcpy in_block
  split_ifs with hb
  · rw [List.append_assoc, slot_append_left, slot_take _ _ _ _ hj]
    rw [List.length_take]; omega
  · rfl

theorem slot_memmove_front (block : List Byte) (width t n i : Nat)
    (h : width * t + width * n ≤ block.length) (hi : i < n) :
    slot (memmove block 0 (width * t) (width * n)) width i = slot block width (t + i) := by
  have hj := slot_end_le width i n hi
  unfold memmove memcpy in_block
  rw [if_pos ⟨h, by omega⟩, List.take_zero, List.nil_append, slot_append_left, slot_take _ _ _ _ hj,
    slot_drop]
  rw [List.length_take, List.length_drop]; omega

theorem memmove_self (block : List Byte) (n : Nat) : memmove block 0 0 n = block := by
  unfold memmove memcpy
  split_ifs
  · simp
  · rfl

/-! ## Queue: the size stays below the capacity -/

theorem queue_new_inv (elem_size : Nat) : queue_inv (queue_new elem_size) := by
  simp [queue_inv, queue_new, DEFAULT_QUEUE_CAPACITY]

theorem queue_push_inv (q : queue) (elem : List Byte) (alloc : Alloc) (h : queue_inv q) :
    queue_inv (queue_push q elem alloc).2 := by
  obtain ⟨h1, h2⟩ := h
  unfold queue_push queue_reallocation realloc size_sub
  cases alloc <;> simp only [queue_inv] <;> split_ifs <;> simp_all <;> omega

theorem queue_pop_inv (q : queue) (elem : List Byte) (alloc : Alloc) (h : queue_inv q) :
    queue_inv (queue_pop q elem alloc).2.1 := by
  obtain ⟨h1, h2⟩ := h
  unfold queue_pop queue_reallocation realloc
  simp only [ceil_half]
  cases alloc <;> simp only [queue_inv] <;> split_ifs <;> simp_all <;> omega

theorem queue_step_inv (q : queue) (c : queue_call) (h : queue_inv q) :
    queue_inv (queue_step q c) := by
  cases c with
  | push elem alloc => exact queue_push_inv q elem alloc h
  | pop elem alloc => exact queue_pop_inv q elem alloc h

theorem queue_run_inv (calls : List queue_call) (q : queue) (h : queue_inv q) :
    queue_inv (queue_run q calls) := by
  induction calls generalizing q with
  | nil => exact h
  | cons c rest ih => exact ih (queue_step q c) (queue_step_inv q c h)

/-! ## Vector: the size stays within the capacity -/

theorem vector_new_size_le (elems elem_size : Nat) (fresh : Nat → Byte) :
    (vector_new elems elem_size fresh).size ≤ (vector_new elems elem_size fresh).capacity := by
  simp [vector_new]

theorem vector_resize_size_le (v : vector) (new_size : Nat) (alloc : Alloc)
    (h : v.size ≤ v.capacity) :
    (vector_resize v new_size alloc).2.size ≤ (vector_resize v new_size alloc).2.capacity := by
  unfold vector_resize realloc
  cases alloc <;> split_ifs <;> simp_all

theorem vector_push_size_le (v : vector) (elem : List Byte) (alloc : Alloc)
    (h : v.size ≤ v.capacity) (hgrow : v.size = v.capacity → 2 * v.capacity + 1 < SIZE_RANGE) :
    (vector_push v elem alloc).2.size ≤ (vector_push v elem alloc).2.capacity := by
  unfold vector_push realloc
  unfold SIZE_RANGE at hgrow ⊢
  cases alloc <;> split_ifs <;> simp_all <;> omega

theorem vector_resize_of_le (v : vector) (new_size : Nat) (alloc : Alloc)
    (h : new_size ≤ v.capacity) :
    vector_resize v new_size alloc = (0, { v with size := new_size }) := by
  unfold vector_resize
  rw [if_neg (by omega)]

/-- What `vector_pop` does on a non-empty vector: the inner `vector_resize`
is called with a size that is not above the capacity, so it reallocates
nothing. -/
theorem vector_pop_eq (v : vector) (elem : List Byte) (alloc : Alloc) (h : v.size ≠ 0) :
    vector_pop v elem alloc =
      (0, { v with
              elems := memset v.elems (v.elem_size * (v.size - 1)) 0 v.elem_size
              size := v.size - 1 },
        memcpy elem 0 v.elems (v.elem_size * (v.size - 1)) v.elem_size) := by
  unfold vector_pop
  rw [if_neg h]
  by_cases h2 : 2 * (v.size - 1) ≤ v.capacity
  · simp only [h2, if_true]
    rw [vector_resize_of_le _ _ _ (by simp only; omega)]
  · simp only [h2, if_false]

theorem vector_pop_capacity (v : vector) (elem : List Byte) (alloc : Alloc) :
    (vector_pop v elem alloc).2.1.capacity = v.capacity := by
  by_cases h : v.size = 0
  · simp [vector_pop, h]
  · rw [vector_pop_eq v elem alloc h]

theorem vector_pop_size_le (v : vector) (elem : List Byte) (alloc : Alloc)
    (h : v.size ≤ v.capacity) :
    (vector_pop v elem alloc).2.1.size ≤ (vector_pop v elem alloc).2.1.capacity := by
  by_cases h0 : v.size = 0
  · simp [vector_pop, h0]
  · rw [vector_pop_eq v elem alloc h0]
    simp only
    omega

theorem vector_run_size_le (calls : List vector_call) (v : vector) (h : v.size ≤ v.capacity)
    (hfit : vector_growths_fit v calls = true) :
    (vector_run v calls).size ≤ (vector_run v calls).capacity := by
  induction calls generalizing v with
  | nil => exact h
  | cons c rest ih =>
      cases c with
      | push elem alloc =>
          simp only [vector_growths_fit, Bool.and_eq_true, decide_eq_true_eq] at hfit
          exact ih _ (vector_push_size_le v elem alloc h hfit.1) hfit.2
      | pop elem alloc =>
          simp only [vector_growths_fit] at hfit
          exact ih _ (vector_pop_size_le v elem alloc h) hfit
      | set index elem =>
          simp only [vector_growths_fit] at hfit
          refine ih _ ?_ hfit
          simp only [vector_step, vector_set]
          split_ifs <;> exact h
      | get index elem =>
          simp only [vector_growths_fit] at hfit
          exact ih _ h hfit
      | resize new_size alloc =>
          simp only [vector_growths_fit] at hfit
          exact ih _ (vector_resize_size_le v new_size alloc h) hfit

/-! ## Claims on the reachable states -/

/-- C1 (the code breaks the invariant `head_index ≤ capacity`): after the
eight calls push, pop, push, push, push, push, pop, push on a new queue, every
allocation succeeding, the queue has capacity 5, tail index 2 and head index 6;
the last push found size 3 and capacity 5, did not grow the block, and its
write to slot 5 lies outside the 5-slot block. -/
theorem queue_head_index_passes_capacity :
    queue_allocs_succeed overrun_calls ∧
    (queue_run (queue_new 1) (overrun_calls.take 7)).size = 3 ∧
    (queue_run (queue_new 1) (overrun_calls.take 7)).capacity = 5 ∧
    (queue_run (queue_new 1) (overrun_calls.take 7)).headIdx = 5 ∧
    ¬ in_block (queue_run (queue_new 1) (overrun_calls.take 7)).data (1 * 5) 1 ∧
    (queue_push (queue_run (queue_new 1) (overrun_calls.take 7)) [6] zeroed).1 = 0 ∧
    (queue_run (queue_new 1) overrun_calls).capacity = 5 ∧
    (queue_run (queue_new 1) overrun_calls).tailIdx = 2 ∧
    (queue_run (queue_new 1) overrun_calls).headIdx = 6 ∧
    ¬ ((queue_run (queue_new 1) overrun_calls).headIdx ≤
        (queue_run (queue_new 1) overrun_calls).capacity) := by
  decide

/-- C2 (the code is not a first-in-first-out queue on every call sequence): after
the eight calls push 1, pop, push 2, 3, 4, 5, pop, push 6 the reference queue
holds 3, 4, 5, 6, while the live window of the program's queue is slots 2 to 5
of a block that has only the slots 0 to 4, so element 6 is not in it. -/
theorem queue_live_window_differs_from_fifo :
    queue_allocs_succeed overrun_calls ∧
    fifo_run [] overrun_calls = [[3], [4], [5], [6]] ∧
    queue_live (queue_run (queue_new 1) overrun_calls) = [[3], [4], [5], []] ∧
    (queue_run (queue_new 1) overrun_calls).data = [1, 2, 3, 4, 5] ∧
    queue_live (queue_run (queue_new 1) overrun_calls) ≠ fifo_run [] overrun_calls := by
  decide

/-- C3, as stated, fails for the vector: `vector_new(2 ^ 63 + 1, 2)` asks
`malloc` for `2 * (2 ^ 63 + 1)` bytes, which is 2 in `size_t`, and leaves size
and capacity `2 ^ 63 + 1`. One push with a successful allocation finds the
vector full, computes the capacity `2 * (2 ^ 63 + 1) + 1`, which is 3 in
`size_t`, asks `realloc` for 6 bytes, writes at the offset
`(2 ^ 63 + 1) * 2`, which is 2 in `size_t` and inside the block, and returns
0 with size `2 ^ 63 + 2` above capacity 3. -/
theorem vector_size_passes_capacity :
    huge_vector.size = 9223372036854775809 ∧
    huge_vector.capacity = 9223372036854775809 ∧
    huge_vector.elems.length = 2 ∧
    (vector_push huge_vector [1, 2] zeroed).1 = 0 ∧
    (vector_push huge_vector [1, 2] zeroed).2.elems = [0, 0, 1, 2, 0, 0] ∧
    (vector_push huge_vector [1, 2] zeroed).2.capacity = 3 ∧
    (vector_push huge_vector [1, 2] zeroed).2.size = 9223372036854775810 ∧
    ¬ ((vector_run (vector_new 9223372036854775809 2 (fun _ => 0)) [.push [1, 2] zeroed]).size ≤
        (vector_run (vector_new 9223372036854775809 2 (fun _ => 0))
          [.push [1, 2] zeroed]).capacity) := by
  decide

/-- C3, amended: the size never exceeds the capacity in every state reached
from `queue_new` by pushes and pops, whatever the allocator answers, and in
every state reached from `vector_new` by push, pop, set, get and resize,
whatever the allocator answers, as long as no push finds the vector full at a
capacity whose growth `2 * capacity + 1` is not a value of `size_t`. -/
theorem size_le_capacity_while_growths_fit :
    (∀ (elem_size : Nat) (calls : List queue_call),
      (queue_run (queue_new elem_size) calls).size ≤
        (queue_run (queue_new elem_size) calls).capacity) ∧
    (∀ (elems elem_size : Nat) (fresh : Nat → Byte) (calls : List vector_call),
      vector_growths_fit (vector_new elems elem_size fresh) calls = true →
      (vector_run (vector_new elems elem_size fresh) calls).size ≤
        (vector_run (vector_new elems elem_size fresh) calls).capacity) := by
  constructor
  · intro elem_size calls
    exact Nat.le_of_lt (queue_run_inv calls _ (queue_new_inv elem_size)).1
  · intro elems elem_size fresh calls hfit
    exact vector_run_size_le calls _ (vector_new_size_le elems elem_size fresh) hfit

/-- Witness of C3, amended: a push that grows a vector of two one-byte
elements, a resize to nine elements, a pop and a push that the allocator
refuses. -/
theorem size_le_capacity_while_growths_fit_witness :
    vector_growths_fit (vector_new 2 1 (fun _ => 7))
      [.push [1] zeroed, .resize 9 zeroed, .pop [0] none, .push [2] none] = true ∧
    (vector_run (vector_new 2 1 (fun _ => 7))
      [.push [1] zeroed, .resize 9 zeroed, .pop [0] none, .push [2] none]).size ≤
      (vector_run (vector_new 2 1 (fun _ => 7))
        [.push [1] zeroed, .resize 9 zeroed, .pop [0] none, .push [2] none]).capacity :=
  ⟨by decide, size_le_capacity_while_growths_fit.2 2 1 (fun _ => 7)
    [.push [1] zeroed, .resize 9 zeroed, .pop [0] none, .push [2] none] (by decide)⟩

/-- C4 (the code never shrinks the vector): popping from a vector of two
one-byte elements returns 0 and leaves size 1, for which `2 * size ≤ capacity`
holds, yet the capacity is still 2 and not the new size. -/
theorem vector_pop_keeps_capacity :
    two_sevens.size = 2 ∧ two_sevens.capacity = 2 ∧
    (vector_pop two_sevens [0] zeroed).1 = 0 ∧
    (vector_pop two_sevens [0] zeroed).2.1.size = 1 ∧
    2 * (vector_pop two_sevens [0] zeroed).2.1.size ≤
      (vector_pop two_sevens [0] zeroed).2.1.capacity ∧
    (vector_pop two_sevens [0] zeroed).2.1.capacity = 2 ∧
    (vector_pop two_sevens [0] zeroed).2.1.capacity ≠
      (vector_pop two_sevens [0] zeroed).2.1.size := by
  decide

/-- C5, as stated, fails: one push and one pop on a new queue, both
allocations succeeding, leave capacity 5, below `DEFAULT_QUEUE_CAPACITY`. -/
theorem queue_capacity_falls_below_default :
    queue_allocs_succeed halving_calls ∧
    (queue_run (queue_new 1) halving_calls).capacity = 5 ∧
    ¬ (DEFAULT_QUEUE_CAPACITY ≤ (queue_run (queue_new 1) halving_calls).capacity) := by
  decide

/-- C5, amended: in every state reached from `queue_new` by pushes and pops
the capacity is at least 1. -/
theorem queue_capacity_pos (elem_size : Nat) (calls : List queue_call) :
    1 ≤ (queue_run (queue_new elem_size) calls).capacity := by
  have h := (queue_run_inv calls _ (queue_new_inv elem_size)).1
  omega

/-! ## Queue: a pop that meets the shrink condition -/

theorem queue_pop_of_shrink (q : queue) (elem : List Byte) (fresh : Nat → Byte)
    (h0 : q.size ≠ 0) (hs : q.size ≤ q.capacity / 2 + (q.capacity &&& 1)) :
    (queue_pop q elem (some fresh)).1 = 0 ∧
    (queue_pop q elem (some fresh)).2.1.size = q.size - 1 ∧
    (queue_pop q elem (some fresh)).2.1.capacity = q.capacity / 2 + (q.capacity &&& 1) := by
  unfold queue_pop queue_reallocation realloc
  simp only [h0, hs, if_true, if_false, ne_eq, not_true_eq_false, and_self]

theorem queue_pop_of_failure (q : queue) (elem : List Byte)
    (h0 : q.size ≠ 0) (hs : q.size ≤ q.capacity / 2 + (q.capacity &&& 1)) :
    queue_pop q elem none =
      (1, { q with
              data := memmove q.data 0 (q.elem_size * q.tailIdx)
                        (q.elem_size * size_sub q.headIdx q.tailIdx)
              headIdx := size_sub q.headIdx q.tailIdx
              tailIdx := 0 }, elem) := by
  unfold queue_pop queue_reallocation realloc
  simp only [h0, hs, if_true, if_false, ne_eq, one_ne_zero, not_false_eq_true]

/-- C6, as stated, fails: the pop after a single push on a new queue meets the
shrink condition and succeeds, and leaves size 0 with capacity 5, which is
above `2 * size + 1`. -/
theorem queue_shrink_leaves_capacity_above_bound :
    single_queue.size ≠ 0 ∧
    single_queue.size ≤ single_queue.capacity / 2 + (single_queue.capacity &&& 1) ∧
    (queue_pop single_queue [0] zeroed).1 = 0 ∧
    (queue_pop single_queue [0] zeroed).2.1.size = 0 ∧
    (queue_pop single_queue [0] zeroed).2.1.capacity = 5 ∧
    (queue_pop single_queue [0] zeroed).2.1.capacity < single_queue.capacity ∧
    ¬ ((queue_pop single_queue [0] zeroed).2.1.capacity ≤
        2 * (queue_pop single_queue [0] zeroed).2.1.size + 1) := by
  decide

/-- C6, amended: in a state reached from `queue_new`, a pop on a non-empty queue
that meets the shrink condition and whose reallocation succeeds returns 0 and
leaves `size ≤ capacity`; `capacity ≤ 2 * size + 1` holds when the size left is
at least 2, and in every case the capacity left is at most 5 or at most
`size + 2`. -/
theorem queue_shrink_bounds (elem_size : Nat) (calls : List queue_call) (elem : List Byte)
    (fresh : Nat → Byte)
    (h0 : (queue_run (queue_new elem_size) calls).size ≠ 0)
    (hs : (queue_run (queue_new elem_size) calls).size ≤
      (queue_run (queue_new elem_size) calls).capacity / 2 +
        ((queue_run (queue_new elem_size) calls).capacity &&& 1)) :
    (queue_pop (queue_run (queue_new elem_size) calls) elem (some fresh)).1 = 0 ∧
    (queue_pop (queue_run (queue_new elem_size) calls) elem (some fresh)).2.1.size ≤
      (queue_pop (queue_run (queue_new elem_size) calls) elem (some fresh)).2.1.capacity ∧
    (2 ≤ (queue_pop (queue_run (queue_new elem_size) calls) elem (some fresh)).2.1.size →
      (queue_pop (queue_run (queue_new elem_size) calls) elem (some fresh)).2.1.capacity ≤
        2 * (queue_pop (queue_run (queue_new elem_size) calls) elem (some fresh)).2.1.size + 1) ∧
    ((queue_pop (queue_run (queue_new elem_size) calls) elem (some fresh)).2.1.capacity ≤ 5 ∨
      (queue_pop (queue_run (queue_new elem_size) calls) elem (some fresh)).2.1.capacity ≤
        (queue_pop (queue_run (queue_new elem_size) calls) elem (some fresh)).2.1.size + 2) := by
  obtain ⟨h1, h2⟩ := queue_run_inv calls _ (queue_new_inv elem_size)
  obtain ⟨r1, r2, r3⟩ := queue_pop_of_shrink _ elem fresh h0 hs
  rw [r2, r3]
  rw [ceil_half] at hs ⊢
  refine ⟨r1, ?_, ?_, ?_⟩ <;> omega

/-- Witness of C6, amended: the pop that follows push, pop, push on a new queue. -/
theorem queue_shrink_bounds_witness :
    (queue_pop (queue_run (queue_new 1) offset_calls) [0] zeroed).1 = 0 ∧
    (queue_pop (queue_run (queue_new 1) offset_calls) [0] zeroed).2.1.size ≤
      (queue_pop (queue_run (queue_new 1) offset_calls) [0] zeroed).2.1.capacity :=
  have h := queue_shrink_bounds 1 offset_calls [0] (fun _ => 0) (by decide) (by decide)
  ⟨h.1, h.2.1⟩

/-- C7, as stated, fails: in the queue left by push, pop, push (one element, in
slot 1) the shrink condition holds; when the reallocation fails `queue_pop`
returns 1, but the element has been moved to slot 0, the head index went from 2
to 1 and the tail index from 1 to 0. -/
theorem failed_shrink_moves_the_window :
    offset_queue.size ≠ 0 ∧
    offset_queue.size ≤ offset_queue.capacity / 2 + (offset_queue.capacity &&& 1) ∧
    (queue_pop offset_queue [0] none).1 = 1 ∧
    offset_queue.data = [1, 2, 0, 0, 0] ∧
    (queue_pop offset_queue [0] none).2.1.data = [2, 2, 0, 0, 0] ∧
    offset_queue.headIdx = 2 ∧ (queue_pop offset_queue [0] none).2.1.headIdx = 1 ∧
    offset_queue.tailIdx = 1 ∧ (queue_pop offset_queue [0] none).2.1.tailIdx = 0 ∧
    (queue_pop offset_queue [0] none).2.1 ≠ offset_queue := by
  decide

/-- C7, amended: on a non-empty queue that meets the shrink condition, when the
reallocation fails `queue_pop` returns 1 and leaves the caller's buffer, the
size, the capacity and the element width as they were, but the recentering is
already done: the bytes of the window have been moved to offset 0, the head
index is the old head index minus the old tail index and the tail index is 0.
The whole state is as before the call when the tail index was 0 already. -/
theorem queue_pop_reports_failed_shrink (q : queue) (elem : List Byte)
    (h0 : q.size ≠ 0) (hs : q.size ≤ q.capacity / 2 + (q.capacity &&& 1)) :
    (queue_pop q elem none).1 = 1 ∧
    (queue_pop q elem none).2.2 = elem ∧
    (queue_pop q elem none).2.1.size = q.size ∧
    (queue_pop q elem none).2.1.capacity = q.capacity ∧
    (queue_pop q elem none).2.1.elem_size = q.elem_size ∧
    (queue_pop q elem none).2.1.data =
      memmove q.data 0 (q.elem_size * q.tailIdx) (q.elem_size * size_sub q.headIdx q.tailIdx) ∧
    (queue_pop q elem none).2.1.headIdx = size_sub q.headIdx q.tailIdx ∧
    (queue_pop q elem none).2.1.tailIdx = 0 ∧
    (q.tailIdx = 0 → (queue_pop q elem none).2.1 = q) := by
  rw [queue_pop_of_failure q elem h0 hs]
  refine ⟨rfl, rfl, rfl, rfl, rfl, rfl, rfl, rfl, ?_⟩
  intro ht
  cases q with
  | mk data elem_size size capacity headIdx tailIdx =>
    simp only at ht
    subst ht
    simp [size_sub, memmove_self]

/-- Witness of C7, amended: the queue left by push, pop, push. -/
theorem queue_pop_reports_failed_shrink_witness :
    (queue_pop offset_queue [0] none).1 = 1 ∧
    (queue_pop offset_queue [0] none).2.1.size = offset_queue.size :=
  have h := queue_pop_reports_failed_shrink offset_queue [0] (by decide) (by decide)
  ⟨h.1, h.2.2.1⟩

/-- C8: on a non-empty queue with `tailIdx ≤ headIdx ≤ capacity`,
`size = headIdx - tailIdx` and a block of `capacity` slots that meets the
shrink condition, when the reallocation fails `queue_pop` returns 1, the size
is unchanged, `size = headIdx - tailIdx` still holds, and the elements of the
live window are the same, in the same order, as before the call. -/
theorem failed_shrink_keeps_live_window (q : queue) (elem : List Byte)
    (h0 : q.size ≠ 0) (hth : q.tailIdx ≤ q.headIdx) (hhc : q.headIdx ≤ q.capacity)
    (hsz : q.size = q.headIdx - q.tailIdx) (hwf : queue_wf q)
    (hs : q.size ≤ q.capacity / 2 + (q.capacity &&& 1)) :
    (queue_pop q elem none).1 = 1 ∧
    (queue_pop q elem none).2.1.size = q.size ∧
    (queue_pop q elem none).2.1.size =
      (queue_pop q elem none).2.1.headIdx - (queue_pop q elem none).2.1.tailIdx ∧
    (queue_pop q elem none).2.1.tailIdx ≤ (queue_pop q elem none).2.1.headIdx ∧
    (queue_pop q elem none).2.1.headIdx ≤ (queue_pop q elem none).2.1.capacity ∧
    queue_live (queue_pop q elem none).2.1 = queue_live q := by
  have hsub : size_sub q.headIdx q.tailIdx = q.headIdx - q.tailIdx := by
    unfold size_sub
    rw [if_pos hth]
  rw [queue_pop_of_failure q elem h0 hs, hsub]
  refine ⟨rfl, rfl, ?_, ?_, ?_, ?_⟩
  · simp only [hsz, Nat.sub_zero]
  · exact Nat.zero_le _
  · simp only
    omega
  · unfold queue_live
    simp only [Nat.sub_zero, Nat.zero_add]
    apply List.map_congr_left
    intro i hi
    rw [List.mem_range] at hi
    apply slot_memmove_front _ _ _ _ _ _ hi
    unfold queue_wf at hwf
    rw [hwf, ← Nat.mul_add, Nat.mul_comm q.capacity]
    apply Nat.mul_le_mul_left
    omega

/-- Witness of C8: a queue of four-byte elements with two elements in slots 1
and 2 of five. -/
theorem failed_shrink_keeps_live_window_witness :
    queue_live shifted_queue = [[7, 0, 0, 0], [9, 0, 0, 0]] ∧
    queue_live (queue_pop shifted_queue [0, 0, 0, 0] none).2.1 = queue_live shifted_queue :=
  ⟨by decide,
   (failed_shrink_keeps_live_window shifted_queue [0, 0, 0, 0] (by decide) (by decide)
      (by decide) (by decide) (by decide) (by decide)).2.2.2.2.2⟩

/-! ## The blocks keep the size of `capacity` slots -/

theorem realloc_length (block : List Byte) (n : Nat) (fresh : Nat → Byte) (out : List Byte)
    (h : realloc block n (some fresh) = some out) : out.length = n := by
  unfold realloc at h
  simp only [Option.some.injEq] at h
  subst h
  simp only [List.length_append, List.length_take, List.length_map, List.length_range]
  omega

theorem queue_new_wf (elem_size : Nat) : queue_wf (queue_new elem_size) := by
  simp [queue_wf, queue_new, calloc]

theorem queue_push_wf (q : queue) (elem : List Byte) (alloc : Alloc) (h : queue_wf q) :
    queue_wf (queue_push q elem alloc).2 := by
  unfold queue_wf at h
  unfold queue_push queue_reallocation realloc
  cases alloc <;> simp only [queue_wf] <;> split_ifs <;> simp_all [memcpy_length]
  all_goals omega

theorem queue_pop_wf (q : queue) (elem : List Byte) (alloc : Alloc) (h : queue_wf q) :
    queue_wf (queue_pop q elem alloc).2.1 := by
  unfold queue_wf at h
  unfold queue_pop queue_reallocation realloc memmove
  cases alloc <;> simp only [queue_wf] <;> split_ifs <;> simp_all [memcpy_length]
  all_goals omega

theorem queue_run_wf (calls : List queue_call) (q : queue) (h : queue_wf q) :
    queue_wf (queue_run q calls) := by
  induction calls generalizing q with
  | nil => exact h
  | cons c rest ih =>
      apply ih
      cases c with
      | push elem alloc => exact queue_push_wf q elem alloc h
      | pop elem alloc => exact queue_pop_wf q elem alloc h

/-! ## Stack: peek -/

/-- C9 (the code does not report a peek on an empty stack): on the empty stack
that `stack_new` makes for eight-byte elements `stack_top` returns 0, and the
offset it reads from is `(0 - 1) * 8` converted to `size_t`, outside the
80-byte block. -/
theorem stack_top_on_empty_returns_zero :
    stack_new 8 = some new_stack ∧
    stack_empty new_stack = true ∧
    (stack_top new_stack [0, 0, 0, 0, 0, 0, 0, 0]).1 = 0 ∧
    stack_top_beginning new_stack = SIZE_RANGE - 8 ∧
    ¬ in_block new_stack.elems (stack_top_beginning new_stack) new_stack.elem_size := by
  decide

/-! ## Vector: push -/

/-- A push on a vector that is not full, in general. -/
theorem vector_push_of_room_wrapping (v : vector) (elem : List Byte) (alloc : Alloc)
    (h : v.size ≠ v.capacity) :
    vector_push v elem alloc =
      (0, { v with
              elems := memcpy v.elems ((v.size * v.elem_size) % SIZE_RANGE) elem 0 v.elem_size
              size := (v.size + 1) % SIZE_RANGE }) := by
  unfold vector_push
  simp only [h, if_false, ne_eq, not_true_eq_false]

/-- A push with a successful allocation on a full vector, in general. -/
theorem vector_push_of_full_wrapping (v : vector) (elem : List Byte) (fresh : Nat → Byte)
    (h : v.size = v.capacity) :
    vector_push v elem (some fresh) =
      (0, { elems := memcpy
                (v.elems.take (((2 * v.capacity + 1) * v.elem_size) % SIZE_RANGE) ++
                  (List.range (((2 * v.capacity + 1) * v.elem_size) % SIZE_RANGE -
                    v.elems.length)).map fresh)
                ((v.size * v.elem_size) % SIZE_RANGE) elem 0 v.elem_size
            elem_size := v.elem_size
            size := (v.size + 1) % SIZE_RANGE
            capacity := (2 * v.capacity + 1) % SIZE_RANGE }) := by
  unfold vector_push realloc
  simp only [h, if_true, ne_eq, not_true_eq_false, if_false]

/-- A push on a vector that is not full, when no `size_t` computation of the
call wraps. -/
theorem vector_push_of_room (v : vector) (elem : List Byte) (alloc : Alloc)
    (h : v.size ≠ v.capacity) (hsize : v.size ≤ v.capacity) (hfit : vector_fits v) :
    vector_push v elem alloc =
      (0, { v with
              elems := memcpy v.elems (v.size * v.elem_size) elem 0 v.elem_size
              size := v.size + 1 }) := by
  obtain ⟨hcap, hblock⟩ := hfit
  have hoff : v.size * v.elem_size ≤ v.capacity * v.elem_size :=
    Nat.mul_le_mul_right _ hsize
  rw [vector_push_of_room_wrapping v elem alloc h,
    Nat.mod_eq_of_lt (Nat.lt_of_le_of_lt hoff hblock),
    Nat.mod_eq_of_lt (show v.size + 1 < SIZE_RANGE by omega)]

/-- A push with a successful allocation on a full vector, when no `size_t`
computation of the call wraps. -/
theorem vector_push_of_full (v : vector) (elem : List Byte) (fresh : Nat → Byte)
    (h : v.size = v.capacity) (hgrow : vector_growth_fits v) :
    vector_push v elem (some fresh) =
      (0, { elems := memcpy (v.elems.take ((2 * v.capacity + 1) * v.elem_size) ++
                (List.range ((2 * v.capacity + 1) * v.elem_size - v.elems.length)).map fresh)
                (v.size * v.elem_size) elem 0 v.elem_size
            elem_size := v.elem_size
            size := v.size + 1
            capacity := 2 * v.capacity + 1 }) := by
  obtain ⟨hcap, hblock⟩ := hgrow
  have hoff : v.size * v.elem_size ≤ (2 * v.capacity + 1) * v.elem_size :=
    Nat.mul_le_mul_right _ (by omega)
  rw [vector_push_of_full_wrapping v elem fresh h, Nat.mod_eq_of_lt hblock,
    Nat.mod_eq_of_lt hcap, Nat.mod_eq_of_lt (Nat.lt_of_le_of_lt hoff hblock),
    Nat.mod_eq_of_lt (show v.size + 1 < SIZE_RANGE by omega)]

theorem vector_push_of_failure (v : vector) (elem : List Byte) (h : v.size = v.capacity) :
    vector_push v elem none = (1, v) := by
  unfold vector_push realloc
  simp only [h, if_true, ne_eq, one_ne_zero, not_false_eq_true]

/-- C10: on a vector with `size ≤ capacity` whose block has `capacity` slots,
with the capacity and the byte size of the block in the range of `size_t` and,
if the vector is full, the grown capacity `2 * capacity + 1` and the byte size
of the grown block in that range too, and for an element of `elem_size` bytes:
when no growth is needed or the growth allocation succeeds, `vector_push`
returns 0, the size grows by one, slot old-size holds the element, every slot
below the old size is unchanged, and the capacity is `2 * capacity + 1` exactly
when the size was equal to the capacity and is unchanged otherwise; when the
growth allocation fails, `vector_push` returns 1 and the vector is
unchanged. -/
theorem vector_push_spec (v : vector) (elem : List Byte) (alloc : Alloc)
    (hsize : v.size ≤ v.capacity) (hwf : vector_wf v) (helem : elem.length = v.elem_size)
    (hfit : vector_fits v) (hgrow : v.size = v.capacity → vector_growth_fits v) :
    ((alloc ≠ none ∨ v.size ≠ v.capacity) →
      (vector_push v elem alloc).1 = 0 ∧
      (vector_push v elem alloc).2.size = v.size + 1 ∧
      (vector_push v elem alloc).2.elem_size = v.elem_size ∧
      slot (vector_push v elem alloc).2.elems v.elem_size v.size = elem ∧
      (∀ i, i < v.size →
        slot (vector_push v elem alloc).2.elems v.elem_size i = slot v.elems v.elem_size i) ∧
      ((vector_push v elem alloc).2.capacity = 2 * v.capacity + 1 ↔ v.size = v.capacity) ∧
      (v.size ≠ v.capacity → (vector_push v elem alloc).2.capacity = v.capacity) ∧
      vector_wf (vector_push v elem alloc).2) ∧
    (alloc = none → v.size = v.capacity →
      (vector_push v elem alloc).1 = 1 ∧ (vector_push v elem alloc).2 = v) := by
  unfold vector_wf at hwf
  constructor
  · intro hcase
    by_cases hfull : v.size = v.capacity
    · obtain ⟨fresh, rfl⟩ : ∃ fresh, alloc = some fresh := by
        cases alloc with
        | none => exact absurd hfull (by simpa using hcase)
        | some fresh => exact ⟨fresh, rfl⟩
      have hlen : v.elems.length ≤ (2 * v.capacity + 1) * v.elem_size := by
        rw [hwf]
        exact Nat.mul_le_mul_right _ (by omega)
      have hend : v.elem_size * v.size + v.elem_size ≤ v.elems.length + v.elem_size := by
        rw [hwf, hfull, Nat.mul_comm]
      have hnew : (2 * v.capacity + 1) * v.elem_size = v.elems.length + (v.elems.length + v.elem_size) := by
        rw [hwf]
        ring
      rw [vector_push_of_full v elem fresh hfull (hgrow hfull), List.take_of_length_le hlen,
        Nat.mul_comm v.size v.elem_size]
      refine ⟨rfl, rfl, rfl, ?_, ?_, ?_, ?_, ?_⟩
      · apply slot_memcpy_at _ _ _ _ _ helem
        simp only [List.length_append, List.length_map, List.length_range]
        omega
      · intro i hi
        simp only
        rw [slot_memcpy_below _ _ _ _ _ _ _ hi, slot_append_left]
        have := slot_end_le v.elem_size i v.size hi
        omega
      · simp only [hfull]
      · intro hne
        exact absurd hfull hne
      · simp only [vector_wf, memcpy_length, List.length_append, List.length_map,
          List.length_range]
        omega
    · have hend := slot_end_le v.elem_size v.size v.capacity (by omega)
      rw [vector_push_of_room v elem alloc hfull hsize hfit, Nat.mul_comm v.size v.elem_size]
      refine ⟨rfl, rfl, rfl, ?_, ?_, ?_, ?_, ?_⟩
      · apply slot_memcpy_at _ _ _ _ _ helem
        rw [hwf, Nat.mul_comm v.capacity]
        exact hend
      · intro i hi
        exact slot_memcpy_below _ _ _ _ _ _ _ hi
      · simp only
        constructor
        · intro h
          omega
        · intro h
          exact absurd h hfull
      · intro _
        rfl
      · simp only [vector_wf, memcpy_length]
        exact hwf
  · intro hnone hfull
    subst hnone
    rw [vector_push_of_failure v elem hfull]
    exact ⟨rfl, rfl⟩

/-- Witness of C10: a push on a full vector of two two-byte elements, with a
successful growth. -/
theorem vector_push_spec_witness :
    (vector_push full_vector [5, 6] zeroed).1 = 0 ∧
    (vector_push full_vector [5, 6] zeroed).2.capacity = 5 ∧
    slot (vector_push full_vector [5, 6] zeroed).2.elems 2 2 = [5, 6] ∧
    (vector_push full_vector [5, 6] none).2 = full_vector :=
  have h := vector_push_spec full_vector [5, 6] zeroed (by decide) (by decide) (by decide)
    (by decide) (by decide)
  have hf := vector_push_spec full_vector [5, 6] none (by decide) (by decide) (by decide)
    (by decide) (by decide)
  have hz : zeroed ≠ none := Option.some_ne_none _
  ⟨(h.1 (Or.inl hz)).1, by decide, (h.1 (Or.inl hz)).2.2.2.1, (hf.2 rfl (by decide)).2⟩

/-! ## Vector: the block keeps the size of `capacity` slots -/

theorem memset_length (dst : List Byte) (off : Nat) (value : Byte) (n : Nat) :
    (memset dst off value n).length = dst.length := by
  unfold memset in_block
  split_ifs with h
  · simp only [List.length_append, List.length_take, List.length_replicate, List.length_drop]
    omega
  · rfl

theorem vector_new_wf (elems elem_size : Nat) (fresh : Nat → Byte)
    (hfit : elem_size * elems < SIZE_RANGE) :
    vector_wf (vector_new elems elem_size fresh) := by
  unfold vector_wf vector_new malloc
  simp only [List.length_map, List.length_range]
  rw [Nat.mod_eq_of_lt hfit, Nat.mul_comm]

theorem vector_resize_wf (v : vector) (new_size : Nat) (alloc : Alloc) (h : vector_wf v)
    (hfit : new_size ≤ v.capacity ∨ new_size * v.elem_size < SIZE_RANGE) :
    vector_wf (vector_resize v new_size alloc).2 := by
  unfold vector_wf at h
  by_cases hle : new_size ≤ v.capacity
  · rw [vector_resize_of_le v new_size alloc hle]
    exact h
  · have hlt : new_size * v.elem_size < SIZE_RANGE := hfit.resolve_left hle
    have hlen : v.capacity * v.elem_size ≤ new_size * v.elem_size :=
      Nat.mul_le_mul_right _ (by omega)
    unfold vector_resize realloc
    rw [if_pos (by omega), Nat.mod_eq_of_lt hlt]
    cases alloc with
    | none => exact h
    | some fresh =>
        simp only [vector_wf, List.length_append, List.length_take, List.length_map,
          List.length_range]
        omega

theorem vector_push_wf (v : vector) (elem : List Byte) (alloc : Alloc)
    (hsize : v.size ≤ v.capacity) (h : vector_wf v) (hfit : vector_fits v)
    (hgrow : v.size = v.capacity → vector_growth_fits v) :
    vector_wf (vector_push v elem alloc).2 := by
  unfold vector_wf at h
  by_cases hfull : v.size = v.capacity
  · cases alloc with
    | none => rw [vector_push_of_failure v elem hfull]; exact h
    | some fresh =>
        rw [vector_push_of_full v elem fresh hfull (hgrow hfull)]
        simp only [vector_wf, memcpy_length, List.length_append, List.length_take,
          List.length_map, List.length_range]
        omega
  · rw [vector_push_of_room v elem alloc hfull hsize hfit]
    simp only [vector_wf, memcpy_length]
    exact h

theorem vector_pop_wf (v : vector) (elem : List Byte) (alloc : Alloc) (h : vector_wf v) :
    vector_wf (vector_pop v elem alloc).2.1 := by
  unfold vector_wf at h
  by_cases h0 : v.size = 0
  · simp only [vector_pop, h0, if_true]
    exact h
  · rw [vector_pop_eq v elem alloc h0]
    simp only [vector_wf, memset_length]
    exact h

theorem vector_set_wf (v : vector) (index : Nat) (elem : List Byte) (h : vector_wf v) :
    vector_wf (vector_set v index elem).2 := by
  unfold vector_wf at h
  simp only [vector_set]
  split_ifs
  · exact h
  · simp only [vector_wf, memcpy_length]
    exact h

/-! ## More on slots: reads into a buffer, writes above a slot, cleared slots -/

theorem memcpy_into_buffer (elem src : List Byte) (width i : Nat)
    (helem : elem.length = width) (h : width * i + width ≤ src.length) :
    memcpy elem 0 src (width * i) width = slot src width i := by
  unfold memcpy in_block slot
  rw [if_pos ⟨h, by omega⟩, List.take_zero, List.nil_append, Nat.zero_add,
    List.drop_of_length_le (Nat.le_of_eq helem), List.append_nil]

theorem slot_write_above (dst mid : List Byte) (width i j : Nat) (hmid : mid.length = width)
    (hi : width * i + width ≤ dst.length) (h : i < j) :
    slot (dst.take (width * i) ++ mid ++ dst.drop (width * i + width)) width j =
      slot dst width j := by
  have hj := slot_end_le width i j h
  have hlen : (dst.take (width * i) ++ mid).length = width * i + width := by
    rw [List.length_append, List.length_take, hmid]
    omega
  have hsplit : width * j = (dst.take (width * i) ++ mid).length + (width * j - (width * i + width)) := by
    rw [hlen]
    omega
  unfold slot
  rw [hsplit, ← List.drop_drop, List.drop_left, List.drop_drop, ← hsplit]
  congr 2
  omega

theorem slot_memcpy_above (dst elem : List Byte) (width i j : Nat) (h : i < j) :
    slot (memcpy dst (width * i) elem 0 width) width j = slot dst width j := by
  unfold memcpy in_block
  split_ifs with hb
  · apply slot_write_above _ _ _ _ _ _ hb.2 h
    rw [List.length_take, List.length_drop]
    omega
  · rfl

theorem slot_memset_at (dst : List Byte) (width i : Nat) (value : Byte)
    (h : width * i + width ≤ dst.length) :
    slot (memset dst (width * i) value width) width i = List.replicate width value := by
  unfold memset in_block
  rw [if_pos h, List.append_assoc, slot_append_right]
  · rw [List.take_left' (List.length_replicate _ _)]
  · rw [List.length_take]
    omega

theorem slot_memset_below (dst : List Byte) (width i j n : Nat) (value : Byte) (h : j < i) :
    slot (memset dst (width * i) value n) width j = slot dst width j := by
  have hj := slot_end_le width j i h
  unfold memset in_block
  split_ifs with hb
  · rw [List.append_assoc, slot_append_left, slot_take _ _ _ _ hj]
    rw [List.length_take]
    omega
  · rfl

theorem slot_length (block : List Byte) (width i : Nat) (h : width * i + width ≤ block.length) :
    (slot block width i).length = width := by
  unfold slot
  rw [List.length_take, List.length_drop]
  omega

/-! ## Vector: pop, get, set, resize -/

/-- C11: `vector_pop` returns a failure code exactly when the size is 0, and
then changes neither the vector nor the caller's buffer. On a vector with
`0 < size ≤ capacity` whose block has `capacity` slots, and with a buffer of
`elem_size` bytes, it returns 0, the buffer receives the element of slot
`size - 1`, the size goes down by one, every slot below the new size is
unchanged, and the vacated slot holds `elem_size` zero bytes. -/
theorem vector_pop_spec (v : vector) (elem : List Byte) (alloc : Alloc) :
    ((vector_pop v elem alloc).1 ≠ 0 ↔ v.size = 0) ∧
    (v.size = 0 → (vector_pop v elem alloc).2.1 = v ∧ (vector_pop v elem alloc).2.2 = elem) ∧
    (0 < v.size → v.size ≤ v.capacity → vector_wf v → elem.length = v.elem_size →
      (vector_pop v elem alloc).1 = 0 ∧
      (vector_pop v elem alloc).2.2 = slot v.elems v.elem_size (v.size - 1) ∧
      (vector_pop v elem alloc).2.1.size = v.size - 1 ∧
      (vector_pop v elem alloc).2.1.elem_size = v.elem_size ∧
      (∀ i, i < v.size - 1 →
        slot (vector_pop v elem alloc).2.1.elems v.elem_size i = slot v.elems v.elem_size i) ∧
      slot (vector_pop v elem alloc).2.1.elems v.elem_size (v.size - 1) =
        List.replicate v.elem_size 0) := by
  by_cases h0 : v.size = 0
  · refine ⟨?_, ?_, ?_⟩
    · simp [vector_pop, h0]
    · intro _
      simp [vector_pop, h0]
    · intro hpos
      omega
  · rw [vector_pop_eq v elem alloc h0]
    refine ⟨?_, ?_, ?_⟩
    · simp [h0]
    · intro h
      exact absurd h h0
    · intro hpos hsize hwf helem
      unfold vector_wf at hwf
      have hend : v.elem_size * (v.size - 1) + v.elem_size ≤ v.elems.length := by
        rw [hwf, Nat.mul_comm v.capacity]
        exact slot_end_le _ _ _ (by omega)
      refine ⟨rfl, ?_, rfl, rfl, ?_, ?_⟩
      · exact memcpy_into_buffer elem v.elems v.elem_size (v.size - 1) helem hend
      · intro i hi
        exact slot_memset_below _ _ _ _ _ _ hi
      · exact slot_memset_at _ _ _ _ hend

/-- Witness of C11: a pop on a vector of two-byte elements with three elements
in four slots. -/
theorem vector_pop_spec_witness :
    (vector_pop three_vector [0, 0] none).1 = 0 ∧
    (vector_pop three_vector [0, 0] none).2.2 = [5, 6] ∧
    (vector_pop three_vector [0, 0] none).2.1.elems = [1, 2, 3, 4, 0, 0, 0, 0] :=
  have h := (vector_pop_spec three_vector [0, 0] none).2.2 (by decide) (by decide) (by decide)
    (by decide)
  ⟨h.1, h.2.1.trans (by decide), by decide⟩

theorem vector_get_of_lt (v : vector) (index : Nat) (elem : List Byte) (h : index < v.size) :
    vector_get v index elem = (0, memcpy elem 0 v.elems (index * v.elem_size) v.elem_size) := by
  unfold vector_get
  rw [if_neg (by omega)]

theorem vector_set_of_lt (v : vector) (index : Nat) (elem : List Byte) (h : index < v.size) :
    vector_set v index elem =
      (0, { v with elems := memcpy v.elems (v.elem_size * index) elem 0 v.elem_size }) := by
  unfold vector_set
  rw [if_neg (by omega)]

/-- What `vector_get` delivers for an index below the size, on a vector whose
block has `capacity` slots: return code 0 and the element of the slot. -/
theorem vector_get_slot (v : vector) (index : Nat) (elem : List Byte) (h : index < v.size)
    (hsize : v.size ≤ v.capacity) (hwf : v.elems.length = v.capacity * v.elem_size)
    (helem : elem.length = v.elem_size) :
    vector_get v index elem = (0, slot v.elems v.elem_size index) := by
  rw [vector_get_of_lt v index elem h, Nat.mul_comm index]
  rw [memcpy_into_buffer elem v.elems v.elem_size index helem]
  rw [hwf, Nat.mul_comm v.capacity]
  exact slot_end_le _ _ _ (by omega)

/-- C12: `vector_get` and `vector_set` return a failure code exactly when
`index ≥ size`, and then leave the vector and the caller's buffer as they were.
On a vector with `size ≤ capacity` whose block has `capacity` slots, for an
index below the size and an element and a buffer of `elem_size` bytes:
`vector_set` returns 0 and keeps size and capacity, a `vector_get` of the same
index then yields the element, and a `vector_get` of any other index below the
size yields what it yielded before. -/
theorem vector_get_set_spec (v : vector) (index : Nat) (elem out : List Byte) :
    ((vector_set v index elem).1 ≠ 0 ↔ index ≥ v.size) ∧
    ((vector_get v index out).1 ≠ 0 ↔ index ≥ v.size) ∧
    (index ≥ v.size → (vector_set v index elem).2 = v ∧ (vector_get v index out).2 = out) ∧
    (index < v.size → v.size ≤ v.capacity → vector_wf v → elem.length = v.elem_size →
        out.length = v.elem_size →
      (vector_set v index elem).1 = 0 ∧
      (vector_set v index elem).2.size = v.size ∧
      (vector_set v index elem).2.capacity = v.capacity ∧
      vector_get (vector_set v index elem).2 index out = (0, elem) ∧
      (∀ j, j < v.size → j ≠ index →
        vector_get (vector_set v index elem).2 j out = vector_get v j out)) := by
  by_cases h : index < v.size
  · have hge : ¬ index ≥ v.size := by omega
    refine ⟨?_, ?_, ?_, ?_⟩
    · simp [vector_set_of_lt v index elem h, hge]
    · simp [vector_get_of_lt v index out h, hge]
    · intro h2
      exact absurd h2 hge
    · intro _ hsize hwf helem hout
      unfold vector_wf at hwf
      have hend : v.elem_size * index + v.elem_size ≤ v.elems.length := by
        rw [hwf, Nat.mul_comm v.capacity]
        exact slot_end_le _ _ _ (by omega)
      rw [vector_set_of_lt v index elem h]
      have key : ∀ j, j < v.size →
          vector_get { v with elems := memcpy v.elems (v.elem_size * index) elem 0 v.elem_size }
              j out =
            (0, slot (memcpy v.elems (v.elem_size * index) elem 0 v.elem_size) v.elem_size j) := by
        intro j hj
        exact vector_get_slot
          { v with elems := memcpy v.elems (v.elem_size * index) elem 0 v.elem_size } j out hj hsize
          (by simp only [memcpy_length]; exact hwf) hout
      refine ⟨rfl, rfl, rfl, ?_, ?_⟩
      · simp only
        rw [key index h, slot_memcpy_at _ _ _ _ hend helem]
      · intro j hj hne
        simp only
        rw [key j hj, vector_get_slot v j out hj hsize hwf hout]
        rcases Nat.lt_or_gt_of_ne hne with hlt | hgt
        · rw [slot_memcpy_below _ _ _ _ _ _ _ hlt]
        · rw [slot_memcpy_above _ _ _ _ _ hgt]
  · have hge : index ≥ v.size := by omega
    refine ⟨?_, ?_, ?_, ?_⟩
    · simp [vector_set, hge]
    · simp [vector_get, hge]
    · intro _
      simp [vector_set, vector_get, hge]
    · intro h2
      exact absurd h2 h

/-- Witness of C12: setting element 1 of a vector of two-byte elements with three
elements in four slots. -/
theorem vector_get_set_spec_witness :
    vector_get (vector_set three_vector 1 [8, 9]).2 1 [0, 0] = (0, [8, 9]) ∧
    vector_get (vector_set three_vector 1 [8, 9]).2 2 [0, 0] = (0, [5, 6]) :=
  have h := (vector_get_set_spec three_vector 1 [8, 9] [0, 0]).2.2.2 (by decide) (by decide)
    (by decide) (by decide) (by decide)
  ⟨h.2.2.2.1, (h.2.2.2.2 2 (by decide) (by decide)).trans (by decide)⟩

theorem vector_resize_of_grow (v : vector) (new_size : Nat) (fresh : Nat → Byte)
    (h : new_size > v.capacity) :
    vector_resize v new_size (some fresh) =
      (0, { elems := v.elems.take ((new_size * v.elem_size) % SIZE_RANGE) ++
              (List.range ((new_size * v.elem_size) % SIZE_RANGE - v.elems.length)).map fresh
            elem_size := v.elem_size
            size := new_size
            capacity := new_size }) := by
  unfold vector_resize realloc
  rw [if_pos h]

theorem vector_resize_of_failure (v : vector) (new_size : Nat) (h : new_size > v.capacity) :
    vector_resize v new_size none = (1, v) := by
  unfold vector_resize realloc
  rw [if_pos h]

/-- C13, as stated, fails: on the full vector of the ten four-byte elements 0
to 9, whose block has its 40 bytes, `vector_resize` to `2 ^ 62 + 1` elements
with a successful allocation asks `realloc` for `(2 ^ 62 + 1) * 4` bytes, which
is 4 in `size_t`. It returns 0 with size and capacity `2 ^ 62 + 1` and a block
of four bytes, so the element 1 at index 1, below both sizes, is no longer in
the block. -/
theorem vector_resize_drops_elements :
    ten_ints.size ≤ ten_ints.capacity ∧
    vector_wf ten_ints ∧
    (vector_resize ten_ints 4611686018427387905 zeroed).1 = 0 ∧
    (vector_resize ten_ints 4611686018427387905 zeroed).2.size = 4611686018427387905 ∧
    (vector_resize ten_ints 4611686018427387905 zeroed).2.capacity = 4611686018427387905 ∧
    (vector_resize ten_ints 4611686018427387905 zeroed).2.elems = [0, 0, 0, 0] ∧
    1 < ten_ints.size ∧
    slot ten_ints.elems 4 1 = [1, 0, 0, 0] ∧
    slot (vector_resize ten_ints 4611686018427387905 zeroed).2.elems 4 1 = [] ∧
    slot (vector_resize ten_ints 4611686018427387905 zeroed).2.elems 4 1 ≠
      slot ten_ints.elems 4 1 := by
  decide

/-- C13, amended: when no allocation is needed or the allocation succeeds,
`vector_resize` returns 0 and sets the size to `new_size`; the capacity becomes
`new_size` if that is above the old capacity and is unchanged otherwise; on a
vector with `size ≤ capacity` whose block has `capacity` slots, every element at
an index below both the old size and `new_size` is unchanged, provided that
`new_size` is not above the capacity or the byte count `new_size * elem_size`
is a value of `size_t`. When the allocation fails, it returns 1 and the vector
is unchanged. -/
theorem vector_resize_spec (v : vector) (new_size : Nat) (alloc : Alloc) :
    ((alloc ≠ none ∨ new_size ≤ v.capacity) →
      (vector_resize v new_size alloc).1 = 0 ∧
      (vector_resize v new_size alloc).2.size = new_size ∧
      (vector_resize v new_size alloc).2.elem_size = v.elem_size ∧
      (new_size > v.capacity → (vector_resize v new_size alloc).2.capacity = new_size) ∧
      (new_size ≤ v.capacity → (vector_resize v new_size alloc).2.capacity = v.capacity) ∧
      (v.size ≤ v.capacity → vector_wf v →
        (new_size ≤ v.capacity ∨ new_size * v.elem_size < SIZE_RANGE) →
        ∀ i, i < v.size → i < new_size →
          slot (vector_resize v new_size alloc).2.elems v.elem_size i =
            slot v.elems v.elem_size i)) ∧
    (alloc = none → new_size > v.capacity →
      (vector_resize v new_size alloc).1 = 1 ∧ (vector_resize v new_size alloc).2 = v) := by
  constructor
  · intro hcase
    by_cases hle : new_size ≤ v.capacity
    · rw [vector_resize_of_le v new_size alloc hle]
      refine ⟨rfl, rfl, rfl, ?_, ?_, ?_⟩
      · intro hgt
        omega
      · intro _
        rfl
      · intro _ _ _ i _ _
        rfl
    · obtain ⟨fresh, rfl⟩ : ∃ fresh, alloc = some fresh := by
        cases alloc with
        | none => exact absurd hcase (by simp [hle])
        | some fresh => exact ⟨fresh, rfl⟩
      rw [vector_resize_of_grow v new_size fresh (by omega)]
      refine ⟨rfl, rfl, rfl, ?_, ?_, ?_⟩
      · intro _
        rfl
      · intro h
        exact absurd h hle
      · intro hsize hwf hfit i hi _
        unfold vector_wf at hwf
        have hend : v.elem_size * i + v.elem_size ≤ v.elems.length := by
          rw [hwf, Nat.mul_comm v.capacity]
          exact slot_end_le _ _ _ (by omega)
        have hlen : v.elems.length ≤ new_size * v.elem_size := by
          rw [hwf]
          exact Nat.mul_le_mul_right _ (by omega)
        simp only
        rw [Nat.mod_eq_of_lt (hfit.resolve_left hle), List.take_of_length_le hlen,
          slot_append_left _ _ _ _ hend]
  · intro hnone hgt
    subst hnone
    rw [vector_resize_of_failure v new_size hgt]
    exact ⟨rfl, rfl⟩

/-- Witness of C13, amended: resizing a vector of two-byte elements with three elements
in four slots to six elements. -/
theorem vector_resize_spec_witness :
    (vector_resize three_vector 6 zeroed).1 = 0 ∧
    (vector_resize three_vector 6 zeroed).2.size = 6 ∧
    (vector_resize three_vector 6 zeroed).2.capacity = 6 ∧
    slot (vector_resize three_vector 6 zeroed).2.elems 2 2 = [5, 6] ∧
    (vector_resize three_vector 6 none).2 = three_vector :=
  have hz : zeroed ≠ none := Option.some_ne_none _
  have h := (vector_resize_spec three_vector 6 zeroed).1 (Or.inl hz)
  have hf := (vector_resize_spec three_vector 6 none).2 rfl (by decide)
  ⟨h.1, h.2.1, h.2.2.2.1 (by decide),
    (h.2.2.2.2.2 (by decide) (by decide) (by decide) 2 (by decide) (by decide)).trans
      (by decide), hf.2⟩

/-! ## Vector: a push followed by a pop -/

/-- The vector that a successful push leaves, slot by slot. -/
theorem vector_push_slots (v : vector) (elem : List Byte) (alloc : Alloc)
    (hsize : v.size ≤ v.capacity) (hwf : vector_wf v) (helem : elem.length = v.elem_size)
    (hfit : vector_fits v) (hgrow : v.size = v.capacity → vector_growth_fits v)
    (hpush : (vector_push v elem alloc).1 = 0) :
    (vector_push v elem alloc).2.size = v.size + 1 ∧
    (vector_push v elem alloc).2.elem_size = v.elem_size ∧
    (vector_push v elem alloc).2.size ≤ (vector_push v elem alloc).2.capacity ∧
    vector_wf (vector_push v elem alloc).2 ∧
    slot (vector_push v elem alloc).2.elems v.elem_size v.size = elem ∧
    (∀ i, i < v.size →
      slot (vector_push v elem alloc).2.elems v.elem_size i = slot v.elems v.elem_size i) := by
  have hle := vector_push_size_le v elem alloc hsize (fun h => (hgrow h).1)
  have hwf1 := vector_push_wf v elem alloc hsize hwf hfit hgrow
  unfold vector_wf at hwf
  by_cases hfull : v.size = v.capacity
  · cases alloc with
    | none =>
        rw [vector_push_of_failure v elem hfull] at hpush
        exact absurd hpush Nat.one_ne_zero
    | some fresh =>
        have hlen : v.elems.length ≤ (2 * v.capacity + 1) * v.elem_size := by
          rw [hwf]
          exact Nat.mul_le_mul_right _ (by omega)
        have hnew : (2 * v.capacity + 1) * v.elem_size =
            v.elems.length + (v.elems.length + v.elem_size) := by
          rw [hwf]
          ring
        have hoff : v.elem_size * v.size = v.elems.length := by
          rw [hwf, hfull, Nat.mul_comm]
        refine ⟨?_, ?_, hle, hwf1, ?_, ?_⟩
        · rw [vector_push_of_full v elem fresh hfull (hgrow hfull)]
        · rw [vector_push_of_full v elem fresh hfull (hgrow hfull)]
        · rw [vector_push_of_full v elem fresh hfull (hgrow hfull), List.take_of_length_le hlen,
            Nat.mul_comm v.size v.elem_size]
          apply slot_memcpy_at _ _ _ _ _ helem
          simp only [List.length_append, List.length_map, List.length_range]
          omega
        · intro i hi
          rw [vector_push_of_full v elem fresh hfull (hgrow hfull), List.take_of_length_le hlen,
            Nat.mul_comm v.size v.elem_size]
          simp only
          rw [slot_memcpy_below _ _ _ _ _ _ _ hi, slot_append_left]
          have := slot_end_le v.elem_size i v.size hi
          omega
  · have hend := slot_end_le v.elem_size v.size v.capacity (by omega)
    refine ⟨?_, ?_, hle, hwf1, ?_, ?_⟩
    · rw [vector_push_of_room v elem alloc hfull hsize hfit]
    · rw [vector_push_of_room v elem alloc hfull hsize hfit]
    · rw [vector_push_of_room v elem alloc hfull hsize hfit, Nat.mul_comm v.size v.elem_size]
      apply slot_memcpy_at _ _ _ _ _ helem
      rw [hwf, Nat.mul_comm v.capacity]
      exact hend
    · intro i hi
      rw [vector_push_of_room v elem alloc hfull hsize hfit, Nat.mul_comm v.size v.elem_size]
      exact slot_memcpy_below _ _ _ _ _ _ _ hi

/-- C14: on a vector with `size ≤ capacity` whose block has `capacity` slots,
with the capacity and the byte size of the block in the range of `size_t` and,
if the vector is full, the grown capacity `2 * capacity + 1` and the byte size
of the grown block in that range too, for an element and a buffer of
`elem_size` bytes, whatever `elem_size` is: a `vector_push` that returns 0,
followed at once by a `vector_pop`, makes the pop return 0 and deliver exactly
the bytes of the element; the size is the one before the push and the slots
below it hold what they held before the push. -/
theorem vector_push_pop_round_trip (v : vector) (elem out : List Byte) (alloc alloc2 : Alloc)
    (hsize : v.size ≤ v.capacity) (hwf : vector_wf v) (helem : elem.length = v.elem_size)
    (hout : out.length = v.elem_size) (hfit : vector_fits v)
    (hgrow : v.size = v.capacity → vector_growth_fits v)
    (hpush : (vector_push v elem alloc).1 = 0) :
    (vector_pop (vector_push v elem alloc).2 out alloc2).1 = 0 ∧
    (vector_pop (vector_push v elem alloc).2 out alloc2).2.2 = elem ∧
    (vector_pop (vector_push v elem alloc).2 out alloc2).2.1.size = v.size ∧
    (∀ i, i < v.size →
      slot (vector_pop (vector_push v elem alloc).2 out alloc2).2.1.elems v.elem_size i =
        slot v.elems v.elem_size i) := by
  obtain ⟨h1, h2, h3, h4, h5, h6⟩ :=
    vector_push_slots v elem alloc hsize hwf helem hfit hgrow hpush
  generalize vector_push v elem alloc = r at h1 h2 h3 h4 h5 h6
  unfold vector_wf at h4
  have hne : r.2.size ≠ 0 := by omega
  have hlast : r.2.size - 1 = v.size := by omega
  have hend : r.2.elem_size * v.size + r.2.elem_size ≤ r.2.elems.length := by
    rw [h4, Nat.mul_comm r.2.capacity]
    exact slot_end_le _ _ _ (by omega)
  rw [vector_pop_eq r.2 out alloc2 hne, hlast]
  refine ⟨rfl, ?_, ?_, ?_⟩
  · simp only
    rw [memcpy_into_buffer out r.2.elems r.2.elem_size v.size (by omega) hend, h2, h5]
  · rfl
  · intro i hi
    simp only
    rw [← h2, slot_memset_below _ _ _ _ _ _ hi, h2, h6 i hi]

/-- Witness of C14: a push of a 37-byte element on a full vector, with a
successful growth, followed by a pop. -/
theorem vector_push_pop_round_trip_witness :
    (vector_pop (vector_push wide_vector wide_elem zeroed).2 (List.replicate 37 0) none).2.2 =
      wide_elem :=
  (vector_push_pop_round_trip wide_vector wide_elem (List.replicate 37 0) zeroed none
    (by decide) (by decide) (by decide) (by decide) (by decide) (by decide) (by decide)).2.1

/-! ## Queue: push and pop on one state -/

/-- C15 (the code does not always store the element in slot `head_index`): the
queue reached by push, pop, push, push, push, push, pop has size 3, capacity 5
and head index 5. A push of the element 6 returns 0 and, as the claim says,
does not grow; but slot 5 is outside the 5-slot block, so the element is not
stored in the block, whose bytes are as before the call. -/
theorem queue_push_writes_outside_block :
    overrun_queue.size ≤ overrun_queue.capacity ∧
    overrun_queue.size ≠ overrun_queue.capacity - 1 ∧
    overrun_queue.headIdx = 5 ∧ overrun_queue.capacity = 5 ∧
    (queue_push overrun_queue [6] zeroed).1 = 0 ∧
    (queue_push overrun_queue [6] zeroed).2.capacity = 5 ∧
    (queue_push overrun_queue [6] zeroed).2.headIdx = 6 ∧
    ¬ in_block overrun_queue.data (overrun_queue.elem_size * overrun_queue.headIdx)
        overrun_queue.elem_size ∧
    (queue_push overrun_queue [6] zeroed).2.data = overrun_queue.data ∧
    slot (queue_push overrun_queue [6] zeroed).2.data 1 overrun_queue.headIdx ≠ [6] := by
  decide

theorem queue_pop_of_empty (q : queue) (elem : List Byte) (alloc : Alloc) (h : q.size = 0) :
    queue_pop q elem alloc = (1, q, elem) := by
  unfold queue_pop
  rw [if_pos h]

theorem queue_pop_of_keep (q : queue) (elem : List Byte) (alloc : Alloc) (h0 : q.size ≠ 0)
    (hs : ¬ q.size ≤ q.capacity / 2 + (q.capacity &&& 1)) :
    queue_pop q elem alloc =
      (0, { q with tailIdx := q.tailIdx + 1, size := q.size - 1 },
        memcpy elem 0 q.data (q.elem_size * q.tailIdx) q.elem_size) := by
  unfold queue_pop
  simp only [h0, hs, if_false, ne_eq, not_true_eq_false]

theorem queue_pop_of_recenter (q : queue) (elem : List Byte) (fresh : Nat → Byte)
    (h0 : q.size ≠ 0) (hs : q.size ≤ q.capacity / 2 + (q.capacity &&& 1)) :
    queue_pop q elem (some fresh) =
      (0, { data := (memmove q.data 0 (q.elem_size * q.tailIdx)
                      (q.elem_size * size_sub q.headIdx q.tailIdx)).take
                      ((q.capacity / 2 + (q.capacity &&& 1)) * q.elem_size) ++
                    (List.range ((q.capacity / 2 + (q.capacity &&& 1)) * q.elem_size -
                      (memmove q.data 0 (q.elem_size * q.tailIdx)
                        (q.elem_size * size_sub q.headIdx q.tailIdx)).length)).map fresh
            elem_size := q.elem_size
            size := q.size - 1
            capacity := q.capacity / 2 + (q.capacity &&& 1)
            headIdx := size_sub q.headIdx q.tailIdx
            tailIdx := 0 + 1 },
        memcpy elem 0
          ((memmove q.data 0 (q.elem_size * q.tailIdx)
              (q.elem_size * size_sub q.headIdx q.tailIdx)).take
              ((q.capacity / 2 + (q.capacity &&& 1)) * q.elem_size) ++
            (List.range ((q.capacity / 2 + (q.capacity &&& 1)) * q.elem_size -
              (memmove q.data 0 (q.elem_size * q.tailIdx)
                (q.elem_size * size_sub q.headIdx q.tailIdx)).length)).map fresh)
          (q.elem_size * 0) q.elem_size) := by
  unfold queue_pop queue_reallocation realloc
  simp only [h0, hs, if_true, if_false, ne_eq, not_true_eq_false]

theorem map_range_tail (f : Nat → List Byte) (n : Nat) :
    ((List.range n).map f).tail = (List.range (n - 1)).map (fun i => f (i + 1)) := by
  cases n with
  | zero => rfl
  | succ k =>
      rw [List.range_succ_eq_map, List.map_cons, List.tail_cons, List.map_map]
      rfl

theorem slot_recentered (data tail_part : List Byte) (width t n c i : Nat)
    (hsrc : width * t + width * n ≤ data.length) (hi : i < n) (hn : n ≤ c) :
    slot ((memmove data 0 (width * t) (width * n)).take (c * width) ++ tail_part) width i =
      slot data width (t + i) := by
  have hj := slot_end_le width i n hi
  have hc : width * n ≤ c * width := by
    rw [Nat.mul_comm c]
    exact Nat.mul_le_mul_left _ hn
  have hlen : (memmove data 0 (width * t) (width * n)).length = data.length :=
    memcpy_length _ _ _ _ _
  rw [slot_append_left, slot_take _ _ _ _ (by omega), slot_memmove_front _ _ _ _ _ hsrc hi]
  rw [List.length_take, hlen]
  omega

/-- C16: `queue_pop` on an empty queue returns 1 and changes nothing. On a
non-empty queue with `tailIdx ≤ headIdx ≤ capacity`, `size = headIdx - tailIdx`,
a block of `capacity` slots and a buffer of `elem_size` bytes, it returns 0,
delivers the element of slot `tailIdx` and takes one off the size. If
`size ≤ ⌈capacity / 2⌉` held (and the reallocation succeeds), the elements of
the window are in the slots from 0 on in their old order, the capacity is
`⌈capacity / 2⌉`, the head index is the size before the pop and the tail index
is 1; otherwise the capacity, the head index and the block are unchanged and
the tail index is one more. In both cases the live window is the old one
without its first element. -/
theorem queue_pop_spec (q : queue) (elem : List Byte) (alloc : Alloc) :
    (q.size = 0 →
      (queue_pop q elem alloc).1 = 1 ∧ (queue_pop q elem alloc).2.1 = q ∧
      (queue_pop q elem alloc).2.2 = elem) ∧
    (q.size > 0 → q.tailIdx ≤ q.headIdx → q.headIdx ≤ q.capacity →
      q.size = q.headIdx - q.tailIdx → queue_wf q → elem.length = q.elem_size →
      (q.size ≤ (q.capacity + 1) / 2 → alloc ≠ none →
        (queue_pop q elem alloc).1 = 0 ∧
        (queue_pop q elem alloc).2.2 = slot q.data q.elem_size q.tailIdx ∧
        (queue_pop q elem alloc).2.1.size = q.size - 1 ∧
        (queue_pop q elem alloc).2.1.capacity = (q.capacity + 1) / 2 ∧
        (queue_pop q elem alloc).2.1.headIdx = q.size ∧
        (queue_pop q elem alloc).2.1.tailIdx = 1 ∧
        (∀ i, i < q.size →
          slot (queue_pop q elem alloc).2.1.data q.elem_size i =
            slot q.data q.elem_size (q.tailIdx + i)) ∧
        queue_live (queue_pop q elem alloc).2.1 = (queue_live q).tail) ∧
      (¬ q.size ≤ (q.capacity + 1) / 2 →
        (queue_pop q elem alloc).1 = 0 ∧
        (queue_pop q elem alloc).2.2 = slot q.data q.elem_size q.tailIdx ∧
        (queue_pop q elem alloc).2.1.size = q.size - 1 ∧
        (queue_pop q elem alloc).2.1.capacity = q.capacity ∧
        (queue_pop q elem alloc).2.1.headIdx = q.headIdx ∧
        (queue_pop q elem alloc).2.1.tailIdx = q.tailIdx + 1 ∧
        (queue_pop q elem alloc).2.1.data = q.data ∧
        queue_live (queue_pop q elem alloc).2.1 = (queue_live q).tail)) := by
  constructor
  · intro h0
    rw [queue_pop_of_empty q elem alloc h0]
    exact ⟨rfl, rfl, rfl⟩
  · intro hpos hth hhc hsz hwf helem
    unfold queue_wf at hwf
    have h0 : q.size ≠ 0 := by omega
    have hsub : size_sub q.headIdx q.tailIdx = q.size := by
      unfold size_sub
      rw [if_pos hth, hsz]
    have hhead : q.elem_size * q.headIdx ≤ q.data.length := by
      rw [hwf, Nat.mul_comm q.capacity]
      exact Nat.mul_le_mul_left _ hhc
    have hsrc : q.elem_size * q.tailIdx + q.elem_size * q.size ≤ q.data.length := by
      rw [← Nat.mul_add, hsz, Nat.add_sub_cancel' hth]
      exact hhead
    have htail : q.elem_size * q.tailIdx + q.elem_size ≤ q.data.length := by
      have := slot_end_le q.elem_size q.tailIdx q.headIdx (by omega)
      omega
    constructor
    · intro hs halloc
      obtain ⟨fresh, rfl⟩ : ∃ fresh, alloc = some fresh := by
        cases alloc with
        | none => exact absurd rfl halloc
        | some fresh => exact ⟨fresh, rfl⟩
      rw [← ceil_half] at hs ⊢
      rw [queue_pop_of_recenter q elem fresh h0 hs, hsub]
      have hslots : ∀ i, i < q.size →
          slot ((memmove q.data 0 (q.elem_size * q.tailIdx) (q.elem_size * q.size)).take
              ((q.capacity / 2 + (q.capacity &&& 1)) * q.elem_size) ++
            (List.range ((q.capacity / 2 + (q.capacity &&& 1)) * q.elem_size -
              (memmove q.data 0 (q.elem_size * q.tailIdx)
                (q.elem_size * q.size)).length)).map fresh) q.elem_size i =
          slot q.data q.elem_size (q.tailIdx + i) := by
        intro i hi
        exact slot_recentered _ _ _ _ _ _ _ hsrc hi hs
      refine ⟨rfl, ?_, rfl, rfl, rfl, rfl, hslots, ?_⟩
      · simp only
        rw [memcpy_into_buffer elem _ q.elem_size 0 helem, hslots 0 hpos, Nat.add_zero]
        have hlen : (memmove q.data 0 (q.elem_size * q.tailIdx) (q.elem_size * q.size)).length =
            q.data.length := memcpy_length _ _ _ _ _
        have hcap := slot_end_le q.elem_size 0 (q.capacity / 2 + (q.capacity &&& 1)) (by omega)
        simp only [List.length_append, List.length_take, List.length_map, List.length_range, hlen]
        rw [Nat.mul_comm (q.capacity / 2 + (q.capacity &&& 1))]
        omega
      · unfold queue_live
        simp only
        rw [map_range_tail, ← hsz]
        apply List.map_congr_left
        intro i hi
        rw [List.mem_range] at hi
        rw [hslots (0 + 1 + i) (by omega)]
        congr 1
        omega
    · intro hs
      rw [← ceil_half] at hs
      rw [queue_pop_of_keep q elem alloc h0 hs]
      refine ⟨rfl, ?_, rfl, rfl, rfl, rfl, rfl, ?_⟩
      · exact memcpy_into_buffer elem q.data q.elem_size q.tailIdx helem htail
      · unfold queue_live
        simp only
        rw [map_range_tail, Nat.sub_add_eq]
        apply List.map_congr_left
        intro i _
        congr 1
        omega

/-- Witness of C16: a pop, with recentering, on a queue of four-byte elements
that holds 7 and 9 in slots 1 and 2 of five. -/
theorem queue_pop_spec_witness :
    (queue_pop shifted_queue [0, 0, 0, 0] zeroed).1 = 0 ∧
    (queue_pop shifted_queue [0, 0, 0, 0] zeroed).2.2 = [7, 0, 0, 0] ∧
    (queue_pop shifted_queue [0, 0, 0, 0] zeroed).2.1.capacity = 3 ∧
    queue_live (queue_pop shifted_queue [0, 0, 0, 0] zeroed).2.1 = [[9, 0, 0, 0]] :=
  have hz : zeroed ≠ none := Option.some_ne_none _
  have h := ((queue_pop_spec shifted_queue [0, 0, 0, 0] zeroed).2 (by decide) (by decide)
    (by decide) (by decide) (by decide) (by decide)).1 (by decide) hz
  ⟨h.1, h.2.1.trans (by decide), h.2.2.2.1.trans (by decide), h.2.2.2.2.2.2.2.trans (by decide)⟩

/-! ## Stack: last in, first out -/

theorem int_to_size_natCast (n : Nat) (h : n < SIZE_RANGE) : int_to_size (n : Int) = n := by
  unfold int_to_size
  unfold SIZE_RANGE at h ⊢
  omega

set_option maxRecDepth 20000 in
/-- The scenario of `main` in `src/Stack/main.cpp`: after the pushes of the
squares of 0 to 9, a pop delivers 81 and a peek then delivers 64. -/
theorem stack_main_scenario :
    (stack_pushes new_stack squares).map (fun st => (stack_pop st [0, 0, 0, 0, 0, 0, 0, 0]).2.2) =
      some [81, 0, 0, 0, 0, 0, 0, 0] ∧
    (stack_pushes new_stack squares).map
        (fun st => (stack_top (stack_pop st [0, 0, 0, 0, 0, 0, 0, 0]).2.1
          [0, 0, 0, 0, 0, 0, 0, 0]).2.2) =
      some [64, 0, 0, 0, 0, 0, 0, 0] := by
  decide

theorem stack_new_holds (width : Nat) (hw : 0 < width) :
    ∃ st, stack_new width = some st ∧ stack_holds st width 10 [] := by
  refine ⟨_, if_pos hw, rfl, rfl, rfl, by decide, Nat.zero_le _, ?_, ?_⟩
  · simp [calloc, MIN_STACK_CAPACITY]
  · intro i hi
    exact absurd hi (Nat.not_lt_zero i)

theorem int_wrap_natCast (n : Nat) (h : n ≤ INT_MAX) : int_wrap (n : Int) = n := by
  unfold int_wrap
  unfold INT_MAX at h
  omega

theorem stack_push_holds (st : stack) (width cap : Nat) (xs : List (List Byte))
    (elem : List Byte) (fresh : Nat → Byte) (h : stack_holds st width cap xs)
    (helem : elem.length = width) (hint : 2 * (xs.length + 1) ≤ INT_MAX)
    (hfit : 2 * (xs.length + 1) * width < SIZE_RANGE) :
    ∃ st1 cap1, stack_push st elem (some fresh) = (0, some st1) ∧
      stack_holds st1 width cap1 (xs ++ [elem]) := by
  obtain ⟨hw, hsz, hcap, hpos, hle, hlen, hslots⟩ := h
  have hrange : xs.length < SIZE_RANGE := by
    unfold INT_MAX at hint
    unfold SIZE_RANGE
    omega
  have hoff : xs.length * width < SIZE_RANGE := by
    have : xs.length * width ≤ 2 * (xs.length + 1) * width :=
      Nat.mul_le_mul_right _ (by omega)
    omega
  have hnext : xs.length + 1 ≤ INT_MAX := by omega
  have hslots1 : ∀ block : List Byte, (∀ i, i < xs.length → slot block width i = slot st.elems width i) →
      width * xs.length + width ≤ block.length →
      ∀ i, i < (xs ++ [elem]).length →
        slot (memcpy block (width * xs.length) elem 0 width) width i = (xs ++ [elem]).getD i [] := by
    intro block hsame hroom i hi
    rw [List.length_append, List.length_singleton] at hi
    by_cases hlt : i < xs.length
    · rw [slot_memcpy_below _ _ _ _ _ _ _ hlt, hsame i hlt, hslots i hlt,
        List.getD_append _ _ _ _ hlt]
    · have hi2 : i = xs.length := by omega
      subst hi2
      rw [slot_memcpy_at _ _ _ _ hroom helem, List.getD_append_right _ _ _ _ (Nat.le_refl _),
        Nat.sub_self, List.getD_cons_zero]
  by_cases hfull : xs.length = cap
  · have hcap2 : 2 * cap ≤ INT_MAX := by omega
    have hdouble : int_to_size ((2 * cap : Nat) : Int) = 2 * cap := by
      apply int_to_size_natCast
      unfold INT_MAX at hint
      unfold SIZE_RANGE
      omega
    have hbytes : 2 * cap * width < SIZE_RANGE := by
      have : 2 * cap * width ≤ 2 * (xs.length + 1) * width :=
        Nat.mul_le_mul_right _ (by omega)
      omega
    have htake : st.elems.length ≤ 2 * cap * width := by
      rw [hlen, Nat.mul_assoc]
      omega
    have hnew : 2 * cap * width = st.elems.length + st.elems.length := by
      rw [hlen]
      ring
    have hoff2 : width * xs.length = st.elems.length := by
      rw [hlen, hfull, Nat.mul_comm]
    have hsz2 : st.stack_size = st.stack_capacity := by
      rw [hsz, hcap, hfull]
    refine ⟨{ elems := memcpy (st.elems ++
                (List.range (2 * cap * width - st.elems.length)).map fresh)
                (width * xs.length) elem 0 width
              elem_size := width
              stack_size := (xs.length : Int) + 1
              stack_capacity := ((2 * cap : Nat) : Int) }, 2 * cap, ?_, ?_⟩
    · have hwrap : int_wrap (REALLOC_COEFF * (cap : Int)) = ((2 * cap : Nat) : Int) := by
        have h2 : REALLOC_COEFF * (cap : Int) = ((2 * cap : Nat) : Int) := by
          unfold REALLOC_COEFF
          push_cast
          rfl
        rw [h2]
        exact int_wrap_natCast _ hcap2
      have hinc : int_wrap ((xs.length : Int) + 1) = (xs.length : Int) + 1 := by
        have := int_wrap_natCast (xs.length + 1) hnext
        push_cast at this
        exact this
      unfold stack_push stack_realloc realloc
      rw [if_pos hsz2]
      simp only
      rw [hcap, hwrap, hdouble, hw, Nat.mod_eq_of_lt hbytes, List.take_of_length_le htake, hsz,
        int_to_size_natCast _ hrange, Nat.mod_eq_of_lt hoff, hinc,
        Nat.mul_comm xs.length width]
    · refine ⟨rfl, ?_, rfl, by omega, ?_, ?_, ?_⟩
      · simp only [List.length_append, List.length_singleton]
        push_cast
        rfl
      · rw [List.length_append, List.length_singleton]
        omega
      · simp only [memcpy_length, List.length_append, List.length_map, List.length_range]
        omega
      · apply hslots1
        · intro i hi
          apply slot_append_left
          have := slot_end_le width i xs.length hi
          omega
        · simp only [List.length_append, List.length_map, List.length_range]
          have := Nat.le_mul_of_pos_left width hpos
          omega
  · have hroom : width * xs.length + width ≤ st.elems.length := by
      rw [hlen, Nat.mul_comm cap]
      exact slot_end_le _ _ _ (by omega)
    have hne : ¬ (st.stack_size = st.stack_capacity) := by
      rw [hsz, hcap]
      intro h
      exact hfull (by exact_mod_cast h)
    refine ⟨{ st with
                elems := memcpy st.elems (width * xs.length) elem 0 width
                stack_size := (xs.length : Int) + 1 }, cap, ?_, ?_⟩
    · have hinc : int_wrap ((xs.length : Int) + 1) = (xs.length : Int) + 1 := by
        have := int_wrap_natCast (xs.length + 1) hnext
        push_cast at this
        exact this
      unfold stack_push
      rw [if_neg hne]
      simp only
      rw [hsz, int_to_size_natCast _ hrange, hw, Nat.mod_eq_of_lt hoff, hinc,
        Nat.mul_comm xs.length width]
    · refine ⟨hw, ?_, hcap, hpos, ?_, ?_, ?_⟩
      · simp only [List.length_append, List.length_singleton]
        push_cast
        rfl
      · rw [List.length_append, List.length_singleton]
        omega
      · simp only [memcpy_length]
        exact hlen
      · exact hslots1 st.elems (fun _ _ => rfl) hroom

theorem stack_pushes_holds (pushes : List (List Byte × (Nat → Byte))) (st : stack)
    (width cap : Nat) (xs : List (List Byte)) (h : stack_holds st width cap xs)
    (hlen : ∀ x ∈ pushes, x.1.length = width)
    (hint : 2 * (xs.length + pushes.length) ≤ INT_MAX)
    (hfit : 2 * (xs.length + pushes.length) * width < SIZE_RANGE) :
    ∃ st1 cap1, stack_pushes st pushes = some st1 ∧
      stack_holds st1 width cap1 (xs ++ pushes.map Prod.fst) := by
  induction pushes generalizing st cap xs with
  | nil => exact ⟨st, cap, rfl, by simpa using h⟩
  | cons x rest ih =>
      rw [List.length_cons] at hint hfit
      have hfit1 : 2 * (xs.length + 1) * width < SIZE_RANGE := by
        have : 2 * (xs.length + 1) * width ≤ 2 * (xs.length + (rest.length + 1)) * width :=
          Nat.mul_le_mul_right _ (by omega)
        omega
      obtain ⟨st1, cap1, hpush, hholds⟩ :=
        stack_push_holds st width cap xs x.1 x.2 h (hlen x (List.mem_cons_self _ _))
          (by omega) hfit1
      have hlen1 : (xs ++ [x.1]).length + rest.length = xs.length + (rest.length + 1) := by
        rw [List.length_append, List.length_singleton]
        omega
      obtain ⟨st2, cap2, hrest, hholds2⟩ :=
        ih st1 cap1 (xs ++ [x.1]) hholds (fun y hy => hlen y (List.mem_cons_of_mem _ hy))
          (by rw [hlen1]; exact hint) (by rw [hlen1]; exact hfit)
      refine ⟨st2, cap2, ?_, ?_⟩
      · unfold stack_pushes
        rw [hpush]
        exact hrest
      · simpa using hholds2

theorem stack_top_beginning_of_holds (st : stack) (width cap : Nat) (xs : List (List Byte))
    (h : stack_holds st width cap xs) (hne : 0 < xs.length) (hint : xs.length ≤ INT_MAX)
    (hfit : xs.length * width < SIZE_RANGE) :
    stack_top_beginning st = width * (xs.length - 1) := by
  obtain ⟨hw, hsz, _, _, _, _, _⟩ := h
  have hpred : st.stack_size - 1 = ((xs.length - 1 : Nat) : Int) := by
    rw [hsz]
    omega
  have hsmall : xs.length - 1 < SIZE_RANGE := by
    unfold INT_MAX at hint
    unfold SIZE_RANGE
    omega
  have hle : (xs.length - 1) * width ≤ xs.length * width :=
    Nat.mul_le_mul_right _ (Nat.sub_le _ _)
  unfold stack_top_beginning
  rw [hpred, int_to_size_natCast _ hsmall, hw, Nat.mod_eq_of_lt (by omega), Nat.mul_comm]

/-- C18: for elements `x1 .. xn` (`n ≥ 1`) of `width > 0` bytes each, pushed on
the stack that `stack_new` makes, every allocation succeeding, with `2 * n` in
the range of `int` and `2 * n * width` in the range of `size_t`, so that the
`int` product `REALLOC_COEFF * stack_capacity` and the byte count of every
reallocation do not overflow: the pushes leave a stack of size `n`; `stack_top`
returns 0, delivers `xn` and leaves the stack as it is; `stack_pop` returns 0,
delivers `xn` and leaves a stack of size `n - 1` whose slots 0 to `n - 2` hold
`x1 .. x(n-1)` in push order; and `stack_empty` is true exactly when the size
is 0. -/
theorem stack_last_in_first_out (width : Nat) (pushes : List (List Byte × (Nat → Byte)))
    (buf : List Byte) (hw : 0 < width) (hne : pushes ≠ [])
    (hlen : ∀ x ∈ pushes, x.1.length = width) (hbuf : buf.length = width)
    (hint : 2 * pushes.length ≤ INT_MAX) (hfit : 2 * pushes.length * width < SIZE_RANGE) :
    ∃ st0 st, stack_new width = some st0 ∧ stack_pushes st0 pushes = some st ∧
      st.stack_size = (pushes.length : Int) ∧
      stack_top st buf = (0, st, (pushes.getLast hne).1) ∧
      (stack_pop st buf).1 = 0 ∧
      (stack_pop st buf).2.2 = (pushes.getLast hne).1 ∧
      (stack_pop st buf).2.1.stack_size = (pushes.length : Int) - 1 ∧
      (∀ i, i < pushes.length - 1 →
        slot (stack_pop st buf).2.1.elems width i = (pushes.map Prod.fst).getD i []) ∧
      (∀ s : stack, stack_empty s = true ↔ s.stack_size = 0) := by
  obtain ⟨st0, hnew, hholds0⟩ := stack_new_holds width hw
  obtain ⟨st, cap, hrun, hholds⟩ :=
    stack_pushes_holds pushes st0 width 10 [] hholds0 hlen (by simpa using hint)
      (by simpa using hfit)
  rw [List.nil_append] at hholds
  have hpos : 0 < (pushes.map Prod.fst).length := by
    rw [List.length_map]
    exact List.length_pos.mpr hne
  have hfit1 : pushes.length * width < SIZE_RANGE := by
    have : pushes.length * width ≤ 2 * pushes.length * width :=
      Nat.mul_le_mul_right _ (by omega)
    omega
  have hbeg := stack_top_beginning_of_holds st width cap _ hholds hpos
    (by rw [List.length_map]; omega) (by simpa using hfit1)
  obtain ⟨hes, hsz, hcap, hcpos, hle, hblock, hslots⟩ := hholds
  rw [List.length_map] at hsz hle hbeg hpos
  simp only [List.length_map] at hslots
  have hend : width * (pushes.length - 1) + width ≤ st.elems.length := by
    rw [hblock, Nat.mul_comm cap]
    exact slot_end_le _ _ _ (by omega)
  have hlast : slot st.elems width (pushes.length - 1) = (pushes.getLast hne).1 := by
    rw [hslots _ (by omega), List.getD_eq_getElem _ _ (by rw [List.length_map]; omega),
      List.getElem_map, List.getLast_eq_getElem]
  have hsize0 : st.stack_size ≠ 0 := by
    rw [hsz]
    omega
  refine ⟨st0, st, hnew, hrun, hsz, ?_, ?_, ?_, ?_, ?_, ?_⟩
  · unfold stack_top
    simp only
    rw [hbeg, hes, memcpy_into_buffer buf st.elems width _ hbuf hend, hlast]
  · unfold stack_pop
    rw [if_neg hsize0]
  · unfold stack_pop
    rw [if_neg hsize0]
    simp only
    rw [hbeg, hes, memcpy_into_buffer buf st.elems width _ hbuf hend, hlast]
  · unfold stack_pop
    rw [if_neg hsize0]
    simp only
    rw [hsz]
  · intro i hi
    unfold stack_pop
    rw [if_neg hsize0]
    simp only
    rw [hbeg, slot_memset_below _ _ _ _ _ _ hi, hslots i (by omega)]
  · intro s
    simp [stack_empty]

/-- Witness of C18: the ten pushes of `main` in `src/Stack/main.cpp`. -/
theorem stack_last_in_first_out_witness :
    ∃ st0 st, stack_new 8 = some st0 ∧ stack_pushes st0 squares = some st ∧
      (stack_pop st [0, 0, 0, 0, 0, 0, 0, 0]).2.2 = [81, 0, 0, 0, 0, 0, 0, 0] :=
  have hne : squares ≠ [] := List.ne_nil_of_length_pos (by decide)
  have h := stack_last_in_first_out 8 squares [0, 0, 0, 0, 0, 0, 0, 0] (by decide) hne
    (by decide) (by decide) (by decide) (by decide)
  h.elim fun st0 h0 => h0.elim fun st h1 =>
    ⟨st0, st, h1.1, h1.2.1, h1.2.2.2.2.2.1.trans rfl⟩

/-! ## List: insert, erase, find -/

theorem list_insert_walk_values (elem : Int) (next_node : list) (data : Int) :
    list_values (list_insert_walk elem data next_node) =
      data :: (list_values next_node ++ [elem]) := by
  induction next_node generalizing data with
  | NULL => rfl
  | node data1 next1 ih =>
      simp only [list_insert_walk, list_values, ih, List.cons_append]

theorem list_erase_walk_values (elem : Int) (next_node : list) (data : Int) :
    list_values (list_erase_walk elem data next_node) =
      data :: (list_values next_node).erase elem := by
  induction next_node generalizing data with
  | NULL => rfl
  | node data1 next1 ih =>
      by_cases h : data1 = elem
      · simp [list_erase_walk, list_values, h]
      · simp [list_erase_walk, list_values, h, ih, List.erase_cons]

theorem list_erase_values (l : list) (elem : Int) :
    list_values (list_erase l elem) = (list_values l).erase elem := by
  cases l with
  | NULL => rfl
  | node data next_node =>
      by_cases h : data = elem
      · simp [list_erase, list_values, h]
      · simp [list_erase, list_values, h, list_erase_walk_values, List.erase_cons]

theorem list_erase_walk_of_not_mem (elem : Int) (next_node : list) (data : Int)
    (h : elem ∉ list_values next_node) :
    list_erase_walk elem data next_node = .node data next_node := by
  induction next_node generalizing data with
  | NULL => rfl
  | node data1 next1 ih =>
      simp only [list_values, List.mem_cons, not_or] at h
      have h1 : ¬ data1 = elem := fun h2 => h.1 h2.symm
      simp only [list_erase_walk, h1, if_false, ih data1 h.2]

theorem list_find_values (l : list) (elem : Int) (pre post : List Int)
    (h : list_values l = pre ++ elem :: post) (hpre : elem ∉ pre) :
    list_values (list_find l elem) = elem :: post := by
  induction l generalizing pre with
  | NULL =>
      simp [list_values] at h
  | node data next_node ih =>
      cases pre with
      | nil =>
          simp only [list_values, List.nil_append, List.cons.injEq] at h
          simp [list_find, list_values, h.1, h.2]
      | cons p pre1 =>
          simp only [list_values, List.cons_append, List.cons.injEq] at h
          simp only [List.mem_cons, not_or] at hpre
          have hne : ¬ data = elem := by
            rw [h.1]
            exact fun h2 => hpre.1 h2.symm
          simp only [list_find, hne, if_false]
          exact ih pre1 h.2 hpre.2

theorem list_find_eq_NULL (l : list) (elem : Int) :
    list_find l elem = .NULL ↔ elem ∉ list_values l := by
  induction l with
  | NULL => simp [list_find, list_values]
  | node data next_node ih =>
      by_cases h : data = elem
      · simp [list_find, list_values, h]
      · have h1 : ¬ elem = data := fun h2 => h h2.symm
        simp [list_find, list_values, h, h1, ih]

/-- C19: on the sequence of node values, `list_insert` appends the value at the
end; `list_erase` removes the first node whose value is `elem` and keeps all
other values in their order, and leaves the list as it is when `elem` does not
occur; `list_find` returns the first node whose value is `elem`, and `NULL`
exactly when there is none. -/
theorem list_insert_erase_find (l : list) (elem : Int) :
    list_values (list_insert l elem) = list_values l ++ [elem] ∧
    (∀ pre post, list_values l = pre ++ elem :: post → elem ∉ pre →
      list_values (list_erase l elem) = pre ++ post ∧
      list_values (list_find l elem) = elem :: post) ∧
    (elem ∉ list_values l → list_erase l elem = l ∧ list_find l elem = .NULL) ∧
    (list_find l elem = .NULL → elem ∉ list_values l) := by
  refine ⟨?_, ?_, ?_, ?_⟩
  · cases l with
    | NULL => rfl
    | node data next_node => exact list_insert_walk_values elem next_node data
  · intro pre post h hpre
    refine ⟨?_, list_find_values l elem pre post h hpre⟩
    rw [list_erase_values, h, List.erase_append_right _ hpre, List.erase_cons_head]
  · intro h
    refine ⟨?_, (list_find_eq_NULL l elem).mpr h⟩
    cases l with
    | NULL => rfl
    | node data next_node =>
        simp only [list_values, List.mem_cons, not_or] at h
        have h1 : ¬ data = elem := fun h2 => h.1 h2.symm
        simp only [list_erase, h1, if_false]
        exact list_erase_walk_of_not_mem elem next_node data h.2
  · exact (list_find_eq_NULL l elem).mp

/-- Witness of C19: erasing and finding 35 in the list 0, 1, 2, 35, 4 that
`main` builds. -/
theorem list_insert_erase_find_witness :
    list_values main_list = [0, 1, 2, 35, 4] ∧
    list_values (list_erase main_list 35) = [0, 1, 2] ++ [4] ∧
    list_values (list_find main_list 35) = [35, 4] :=
  ⟨by decide,
    ((list_insert_erase_find main_list 35).2.1 [0, 1, 2] [4] (by decide) (by decide)).1,
    ((list_insert_erase_find main_list 35).2.1 [0, 1, 2] [4] (by decide) (by decide)).2⟩

/-! ## Element copies: the queue has no bound linear in the number of calls -/

theorem queue_copies_append (a b : List queue_call) (q : queue) :
    queue_copies q (a ++ b) = queue_copies q a + queue_copies (queue_run q a) b := by
  induction a generalizing q with
  | nil => simp [queue_copies, queue_run]
  | cons c rest ih =>
      show queue_call_copies q c + queue_copies (queue_step q c) (rest ++ b) = _
      rw [ih]
      simp only [queue_copies, queue_run, List.foldl_cons, Nat.add_assoc]

theorem queue_run_append (a b : List queue_call) (q : queue) :
    queue_run q (a ++ b) = queue_run (queue_run q a) b := by
  simp [queue_run, List.foldl_append]

theorem size_sub_of_le (a b : Nat) (h : b ≤ a) : size_sub a b = a - b := by
  unfold size_sub
  rw [if_pos h]

/-- The index fields after a push that meets no allocation failure. -/
theorem queue_push_fields (q : queue) (elem : List Byte) (fresh : Nat → Byte)
    (h : q.size ≤ q.capacity) :
    (queue_push q elem (some fresh)).1 = 0 ∧
    (queue_push q elem (some fresh)).2.size = q.size + 1 ∧
    (queue_push q elem (some fresh)).2.headIdx = q.headIdx + 1 ∧
    (queue_push q elem (some fresh)).2.tailIdx = q.tailIdx ∧
    (queue_push q elem (some fresh)).2.capacity =
      (if q.size = size_sub q.capacity 1 then 2 * q.capacity + 1 else q.capacity) := by
  unfold queue_push queue_reallocation realloc
  have h1 : ¬ q.size > q.capacity := by omega
  by_cases h2 : q.size = size_sub q.capacity 1
  · simp only [if_neg h1, if_pos h2, ne_eq, not_true_eq_false, if_false, and_self]
  · simp only [if_neg h1, if_neg h2, ne_eq, not_true_eq_false, if_false, and_self]

/-- The index fields after a pop that recenters and whose reallocation
succeeds. -/
theorem queue_pop_fields (q : queue) (elem : List Byte) (fresh : Nat → Byte)
    (h0 : q.size ≠ 0) (hs : q.size ≤ q.capacity / 2 + (q.capacity &&& 1)) :
    (queue_pop q elem (some fresh)).2.1.size = q.size - 1 ∧
    (queue_pop q elem (some fresh)).2.1.headIdx = size_sub q.headIdx q.tailIdx ∧
    (queue_pop q elem (some fresh)).2.1.tailIdx = 1 ∧
    (queue_pop q elem (some fresh)).2.1.capacity = q.capacity / 2 + (q.capacity &&& 1) := by
  rw [queue_pop_of_recenter q elem fresh h0 hs]
  exact ⟨rfl, rfl, rfl, rfl⟩

theorem thrash_first_push (q : queue) (s : Nat) (h : thrash_shape q s) :
    (queue_push q [0] zeroed).2.size = s + 1 ∧ (queue_push q [0] zeroed).2.capacity = s + 2 ∧
    (queue_push q [0] zeroed).2.tailIdx = 1 ∧ (queue_push q [0] zeroed).2.headIdx = s + 2 := by
  obtain ⟨h1, h2, h3, h4⟩ := h
  have e1 : size_sub q.capacity 1 = s + 1 := by
    rw [size_sub_of_le q.capacity 1 (by omega)]
    omega
  obtain ⟨_, a1, a2, a3, a4⟩ := queue_push_fields q [0] (fun _ => 0) (by omega)
  rw [e1, if_neg (show ¬ q.size = s + 1 by omega)] at a4
  unfold zeroed
  rw [a1, a2, a3, a4, h1, h2, h3, h4]
  exact ⟨rfl, rfl, rfl, rfl⟩

theorem thrash_second_push (q : queue) (s : Nat)
    (h : q.size = s + 1 ∧ q.capacity = s + 2 ∧ q.tailIdx = 1 ∧ q.headIdx = s + 2) :
    (queue_push q [0] zeroed).2.size = s + 2 ∧
    (queue_push q [0] zeroed).2.capacity = 2 * s + 5 ∧
    (queue_push q [0] zeroed).2.tailIdx = 1 ∧ (queue_push q [0] zeroed).2.headIdx = s + 3 := by
  obtain ⟨h1, h2, h3, h4⟩ := h
  have e1 : size_sub q.capacity 1 = s + 1 := by
    rw [size_sub_of_le q.capacity 1 (by omega)]
    omega
  obtain ⟨_, a1, a2, a3, a4⟩ := queue_push_fields q [0] (fun _ => 0) (by omega)
  rw [e1, if_pos h1] at a4
  unfold zeroed
  rw [a1, a2, a3, a4, h1, h2, h3, h4]
  refine ⟨rfl, ?_, rfl, rfl⟩
  omega

theorem thrash_pop (q : queue) (s : Nat)
    (h : q.size = s + 2 ∧ q.capacity = 2 * s + 5 ∧ q.tailIdx = 1 ∧ q.headIdx = s + 3) :
    thrash_shape (queue_pop q [0] zeroed).2.1 (s + 1) ∧ s + 2 ≤ queue_pop_copies q zeroed := by
  obtain ⟨h1, h2, h3, h4⟩ := h
  have hs : q.size ≤ q.capacity / 2 + (q.capacity &&& 1) := by
    rw [ceil_half]
    omega
  have e3 : size_sub q.headIdx q.tailIdx = s + 2 := by
    rw [size_sub_of_le q.headIdx q.tailIdx (by omega)]
    omega
  have hne : q.size ≠ 0 := by omega
  have hmoves : queue_pop_moves q = s + 2 := by
    unfold queue_pop_moves
    rw [if_neg hne, if_pos hs, e3]
  obtain ⟨c1, c2, c3, c4⟩ := queue_pop_fields q [0] (fun _ => 0) hne hs
  rw [e3] at c2
  rw [ceil_half] at c4
  constructor
  · unfold thrash_shape zeroed
    rw [c1, c2, c3, c4, h1, h2]
    refine ⟨rfl, ?_, rfl, rfl⟩
    omega
  · unfold queue_pop_copies
    rw [hmoves]
    exact Nat.le_add_right _ _

theorem thrash_round_shape (q : queue) (s : Nat) (h : thrash_shape q s) :
    thrash_shape (queue_run q thrash_round) (s + 1) ∧ s + 2 ≤ queue_copies q thrash_round := by
  have h3 := thrash_pop _ s (thrash_second_push _ s (thrash_first_push q s h))
  constructor
  · exact h3.1
  · show s + 2 ≤ queue_push_copies q zeroed +
        (queue_push_copies (queue_push q [0] zeroed).2 zeroed +
          (queue_pop_copies (queue_push (queue_push q [0] zeroed).2 [0] zeroed).2 zeroed + 0))
    exact Nat.le_trans h3.2
      (Nat.le_trans (Nat.le_add_right _ _)
        (Nat.le_trans (Nat.le_add_left _ _) (Nat.le_add_left _ _)))

theorem thrash_rounds_moves (m : Nat) (q : queue) (s : Nat) (h : thrash_shape q s) :
    thrash_moves m s ≤ queue_copies q (thrash_rounds m) := by
  induction m generalizing q s with
  | zero => exact Nat.zero_le _
  | succ m ih =>
      obtain ⟨hshape, hcost⟩ := thrash_round_shape q s h
      have hrest := ih (queue_run q thrash_round) (s + 1) hshape
      simp only [thrash_rounds, thrash_moves, queue_copies_append]
      omega

theorem thrash_moves_closed (m s : Nat) : 2 * thrash_moves m s = m * (2 * s + m + 3) := by
  induction m generalizing s with
  | zero => simp [thrash_moves]
  | succ m ih =>
      simp only [thrash_moves, Nat.mul_add, ih (s + 1)]
      ring

theorem thrash_calls_length (m : Nat) : (thrash_calls m).length = 5 + 3 * m := by
  have h : ∀ k, (thrash_rounds k).length = 3 * k := by
    intro k
    induction k with
    | zero => rfl
    | succ k ih =>
        simp only [thrash_rounds, thrash_round, List.length_append, List.length_cons,
          List.length_nil, ih]
        omega
  simp only [thrash_calls, List.length_append, List.length_cons, List.length_nil, h]

theorem thrash_calls_allocs (m : Nat) : queue_allocs_succeed (thrash_calls m) := by
  have h : ∀ k, queue_allocs_succeed (thrash_rounds k) := by
    intro k
    induction k with
    | zero =>
        intro c hc
        simp [thrash_rounds] at hc
    | succ k ih =>
        intro c hc
        simp only [thrash_rounds, List.mem_append] at hc
        rcases hc with hc | hc
        · revert c
          decide
        · exact ih c hc
  intro c hc
  simp only [thrash_calls, List.mem_append] at hc
  rcases hc with hc | hc
  · revert c
    decide
  · exact h m c hc

theorem thrash_calls_copies (m : Nat) :
    m * (m + 9) ≤ 2 * queue_copies (queue_new 1) (thrash_calls m) := by
  have hshape : thrash_shape (queue_run (queue_new 1)
      [.push [0] zeroed, .pop [0] zeroed, .push [0] zeroed, .push [0] zeroed,
        .push [0] zeroed]) 3 := by
    unfold thrash_shape
    decide
  have h := thrash_rounds_moves m _ 3 hshape
  have hclosed := thrash_moves_closed m 3
  unfold thrash_calls
  rw [queue_copies_append]
  have h9 : m * (2 * 3 + m + 3) = m * (m + 9) := by ring
  omega

/-- C20, as stated, fails: no constant times the number of calls bounds the
element copies of the queue. For every `c` the calls push, pop, push, push,
push followed by `6 * c + 1` rounds of push, push, pop, all allocations
succeeding, copy more than `c` times their number of elements: every round
grows the block, and the pop that follows recenters and shrinks it again. -/
theorem copies_not_linear_in_calls :
    ¬ ∃ c : Nat, ∀ calls : List queue_call, queue_allocs_succeed calls →
      queue_copies (queue_new 1) calls ≤ c * calls.length := by
  rintro ⟨c, h⟩
  have h1 := h (thrash_calls (6 * c + 1)) (thrash_calls_allocs _)
  rw [thrash_calls_length] at h1
  have h2 := thrash_calls_copies (6 * c + 1)
  nlinarith

/-! ## Element copies: what does hold -/

theorem vector_pop_copies_eq_zero (v : vector) (alloc : Alloc) :
    vector_pop_copies v alloc = 0 := by
  unfold vector_pop_copies vector_resize_copies
  split_ifs with h1 h2 h3
  · rfl
  · simp only at h3
    omega
  · rfl
  · rfl

theorem vector_step_copies (v : vector) (c : vector_call)
    (hc : vector_call.push_or_pop c = true)
    (hgrow : v.size = v.capacity → 2 * v.capacity + 1 < SIZE_RANGE) :
    vector_call_copies v c + (2 * (vector_step v c).size - (vector_step v c).capacity) ≤
        2 + (2 * v.size - v.capacity) ∧
      (vector_step v c).size ≤ v.size + 1 := by
  cases c with
  | push elem alloc =>
      simp only [vector_call_copies, vector_step, vector_push_copies, realloc_copies]
      by_cases hfull : v.size = v.capacity
      · have hlt := hgrow hfull
        cases alloc with
        | none =>
            rw [vector_push_of_failure v elem hfull]
            simp
        | some fresh =>
            rw [vector_push_of_full_wrapping v elem fresh hfull]
            simp only [hfull, Option.isSome_some, and_self, if_true]
            unfold SIZE_RANGE at hlt ⊢
            omega
      · rw [vector_push_of_room_wrapping v elem alloc hfull]
        simp only [hfull, false_and, if_false]
        unfold SIZE_RANGE
        omega
  | pop elem alloc =>
      simp only [vector_call_copies, vector_step, vector_pop_copies_eq_zero v alloc]
      by_cases h0 : v.size = 0
      · simp only [vector_pop, h0, if_true]
        omega
      · rw [vector_pop_eq v elem alloc h0]
        simp only
        omega
  | set index elem => simp [vector_call.push_or_pop] at hc
  | get index elem => simp [vector_call.push_or_pop] at hc
  | resize new_size alloc => simp [vector_call.push_or_pop] at hc

theorem vector_copies_le (calls : List vector_call) (v : vector)
    (hc : ∀ c ∈ calls, vector_call.push_or_pop c = true)
    (hfit : 2 * (v.size + calls.length) < SIZE_RANGE) :
    vector_copies v calls ≤ 2 * calls.length + (2 * v.size - v.capacity) := by
  induction calls generalizing v with
  | nil => exact Nat.zero_le _
  | cons c rest ih =>
      rw [List.length_cons] at hfit
      have hstep := vector_step_copies v c (hc c (List.mem_cons_self _ _)) (by omega)
      have hrest := ih (vector_step v c) (fun d hd => hc d (List.mem_cons_of_mem _ hd))
        (by have := hstep.2; omega)
      simp only [vector_copies, List.length_cons]
      omega

theorem queue_push_window (q : queue) (elem : List Byte) (alloc : Alloc) (k : Nat)
    (hinv : queue_inv q) (hw : queue_window_inv q k) :
    queue_window_inv (queue_push q elem alloc).2 (k + 1) ∧
      queue_push_copies q alloc ≤ 3 * k + 10 := by
  obtain ⟨h1, h2⟩ := hinv
  obtain ⟨w1, w2, w3⟩ := hw
  constructor
  · unfold queue_push queue_reallocation realloc
    cases alloc <;> simp only [queue_window_inv] <;> split_ifs <;> simp_all <;> omega
  · unfold queue_push_copies realloc_copies
    split_ifs <;> omega

theorem queue_pop_window (q : queue) (elem : List Byte) (alloc : Alloc) (k : Nat)
    (hinv : queue_inv q) (hw : queue_window_inv q k) :
    queue_window_inv (queue_pop q elem alloc).2.1 (k + 1) ∧
      queue_pop_copies q alloc ≤ 3 * k + 10 := by
  obtain ⟨h1, h2⟩ := hinv
  obtain ⟨w1, w2, w3⟩ := hw
  have hsub : size_sub q.headIdx q.tailIdx = q.size := by
    rw [size_sub_of_le _ _ w1, w2]
  constructor
  · unfold queue_pop queue_reallocation realloc
    rw [hsub]
    cases alloc <;> simp only [queue_window_inv] <;> split_ifs <;> simp_all <;> omega
  · unfold queue_pop_copies queue_pop_moves realloc_copies
    rw [hsub]
    simp only [ceil_half]
    split_ifs <;> omega

theorem queue_copies_le (calls : List queue_call) (q : queue) (k : Nat) (hinv : queue_inv q)
    (hw : queue_window_inv q k) :
    queue_copies q calls ≤ calls.length * (3 * (k + calls.length) + 10) := by
  induction calls generalizing q k with
  | nil => exact Nat.zero_le _
  | cons c rest ih =>
      have hstep : queue_window_inv (queue_step q c) (k + 1) ∧
          queue_call_copies q c ≤ 3 * k + 10 := by
        cases c with
        | push elem alloc => exact queue_push_window q elem alloc k hinv hw
        | pop elem alloc => exact queue_pop_window q elem alloc k hinv hw
      have hrest := ih (queue_step q c) (k + 1) (queue_step_inv q c hinv) hstep.1
      have hcost := hstep.2
      simp only [queue_copies, List.length_cons]
      generalize queue_copies (queue_step q c) rest = x at hrest
      generalize queue_call_copies q c = y at hcost
      generalize rest.length = n at hrest
      nlinarith

/-- Why the bound on the vector needs its range condition: on a vector made
with `2 ^ 64 - 2` elements of no bytes, the first push computes the capacity
`2 ^ 64 - 3` in `size_t`; after two pops the vector is full again, and the
four calls push, pop, pop, push copy `2 ^ 65 - 8` slots, more than
`2 * 4 + (2 ^ 64 - 2)`. -/
theorem vector_copies_past_size_range :
    (vector_push (vector_new 18446744073709551614 0 (fun _ => 0)) [] zeroed).2.capacity =
      18446744073709551613 ∧
    vector_copies (vector_new 18446744073709551614 0 (fun _ => 0))
      [.push [] zeroed, .pop [] zeroed, .pop [] zeroed, .push [] zeroed] =
      36893488147419103224 ∧
    ¬ (vector_copies (vector_new 18446744073709551614 0 (fun _ => 0))
        [.push [] zeroed, .pop [] zeroed, .pop [] zeroed, .push [] zeroed] ≤
      2 * 4 + 18446744073709551614) := by
  decide

/-- C20, amended: for every sequence of `N` push and pop calls on a vector
that `vector_new` made with `elems` elements, with `elems + N` below `2 ^ 63`,
so that the capacity `2 * capacity + 1` of every growth is a value of `size_t`,
whatever the allocator answers, the elements copied by reallocation are at most
`2 * N + elems`. For the queue the elements copied by reallocation and
recentering in `N` calls on a new queue are at most `N * (3 * N + 10)`. -/
theorem copies_bounds :
    (∀ (elems elem_size : Nat) (fresh : Nat → Byte) (calls : List vector_call),
      (∀ call ∈ calls, vector_call.push_or_pop call = true) →
      2 * (elems + calls.length) < SIZE_RANGE →
      vector_copies (vector_new elems elem_size fresh) calls ≤ 2 * calls.length + elems) ∧
    (∀ (elem_size : Nat) (calls : List queue_call),
      queue_copies (queue_new elem_size) calls ≤ calls.length * (3 * calls.length + 10)) := by
  constructor
  · intro elems elem_size fresh calls hc hfit
    have h := vector_copies_le calls (vector_new elems elem_size fresh) hc hfit
    simp only [vector_new] at h ⊢
    omega
  · intro elem_size calls
    have h := queue_copies_le calls (queue_new elem_size) 0 (queue_new_inv elem_size)
      ⟨Nat.le_refl _, rfl, Nat.le_refl _⟩
    simpa using h

/-- Witness of C20, amended: a push that grows a full vector of two elements,
then a pop. -/
theorem copies_bounds_witness :
    vector_copies (vector_new 2 1 (fun _ => 7)) [.push [1] zeroed, .pop [0] none] ≤ 2 * 2 + 2 :=
  copies_bounds.1 2 1 (fun _ => 7) [.push [1] zeroed, .pop [0] none] (by decide) (by decide)

/-! ## Runs commute with a renaming of the bytes -/

theorem memcpy_map (g : Byte → Byte) (dst : List Byte) (dstOff : Nat) (src : List Byte)
    (srcOff n : Nat) :
    memcpy (dst.map g) dstOff (src.map g) srcOff n = (memcpy dst dstOff src srcOff n).map g := by
  unfold memcpy in_block
  simp only [List.length_map]
  split_ifs
  · simp only [List.map_append, List.map_take, List.map_drop]
  · rfl

theorem realloc_map (g : Byte → Byte) (block : List Byte) (n : Nat) (alloc : Alloc) :
    realloc (block.map g) n (alloc.map (fun fresh i => g (fresh i))) =
      (realloc block n alloc).map (List.map g) := by
  cases alloc with
  | none => rfl
  | some fresh =>
      simp only [realloc, Option.map_some', List.length_map, List.map_append, List.map_take,
        List.map_map, Function.comp_def]

theorem queue_reallocation_map (g : Byte → Byte) (q : queue) (c : Nat) (alloc : Alloc) :
    queue_reallocation (queue_map g q) c (alloc.map (fun fresh i => g (fresh i))) =
      ((queue_reallocation q c alloc).1, queue_map g (queue_reallocation q c alloc).2) := by
  unfold queue_reallocation
  simp only [queue_map, realloc_map]
  cases realloc q.data (c * q.elem_size) alloc <;> rfl

theorem queue_push_map (g : Byte → Byte) (q : queue) (elem : List Byte) (alloc : Alloc) :
    queue_push (queue_map g q) (elem.map g) (alloc.map (fun fresh i => g (fresh i))) =
      ((queue_push q elem alloc).1, queue_map g (queue_push q elem alloc).2) := by
  unfold queue_push
  rw [queue_reallocation_map]
  simp only [queue_map]
  split_ifs <;> simp only [memcpy_map, queue_map]

theorem queue_pop_map (g : Byte → Byte) (q : queue) (elem : List Byte) (alloc : Alloc) :
    queue_pop (queue_map g q) (elem.map g) (alloc.map (fun fresh i => g (fresh i))) =
      ((queue_pop q elem alloc).1, queue_map g (queue_pop q elem alloc).2.1,
        (queue_pop q elem alloc).2.2.map g) := by
  unfold queue_pop
  have h := queue_reallocation_map g
    { q with
        data := memmove q.data 0 (q.elem_size * q.tailIdx)
                  (q.elem_size * size_sub q.headIdx q.tailIdx)
        headIdx := size_sub q.headIdx q.tailIdx
        tailIdx := 0 } (q.capacity / 2 + (q.capacity &&& 1)) alloc
  simp only [queue_map, memmove, memcpy_map] at h ⊢
  rw [h]
  split_ifs <;> simp only [memcpy_map, queue_map]

theorem queue_step_map (g : Byte → Byte) (q : queue) (c : queue_call) :
    queue_step (queue_map g q) (queue_call.rename g c) = queue_map g (queue_step q c) := by
  cases c with
  | push elem alloc => simp only [queue_call.rename, queue_step, queue_push_map]
  | pop elem alloc => simp only [queue_call.rename, queue_step, queue_pop_map]

theorem queue_run_map (g : Byte → Byte) (calls : List queue_call) (q : queue) :
    queue_run (queue_map g q) (calls.map (queue_call.rename g)) =
      queue_map g (queue_run q calls) := by
  induction calls generalizing q with
  | nil => rfl
  | cons c rest ih =>
      simp only [List.map_cons, queue_run, List.foldl_cons, queue_step_map]
      exact ih (queue_step q c)

theorem queue_trace_map (g : Byte → Byte) (calls : List queue_call) (q : queue) :
    queue_trace (queue_map g q) (calls.map (queue_call.rename g)) =
      (queue_trace q calls).map (fun r => (r.1, r.2.map g)) := by
  induction calls generalizing q with
  | nil => rfl
  | cons c rest ih =>
      cases c with
      | push elem alloc =>
          simp only [List.map_cons, queue_call.rename, queue_trace, queue_push_map, ih]
      | pop elem alloc =>
          simp only [List.map_cons, queue_call.rename, queue_trace, queue_pop_map, ih]

theorem queue_new_map (g : Byte → Byte) (elem_size : Nat) (h : g 0 = 0) :
    queue_map g (queue_new elem_size) = queue_new elem_size := by
  simp [queue_map, queue_new, calloc, h]

theorem untag_tagged (fresh : Nat → Byte) : (fun i => untag fresh (tagged i)) = fresh := by
  funext i
  unfold untag tagged
  rw [if_neg (show ¬ 256 + i < 256 by omega), Nat.add_sub_cancel_left]

theorem untag_int_elem (fresh : Nat → Byte) (i : Nat) (h : i < 256) :
    (int_elem i).map (untag fresh) = int_elem i := by
  simp [int_elem, untag, h]

theorem scenario_pushes_rename (fresh : Nat → Byte) :
    scenario_pushes fresh = (scenario_pushes tagged).map (queue_call.rename (untag fresh)) := by
  unfold scenario_pushes
  rw [List.map_map]
  apply List.map_congr_left
  intro i hi
  rw [List.mem_range] at hi
  simp only [Function.comp, queue_call.rename, Option.map_some', untag_tagged,
    untag_int_elem fresh i (by omega)]

theorem scenario_pops_rename (count : Nat) (fresh : Nat → Byte) :
    scenario_pops count fresh =
      (scenario_pops count tagged).map (queue_call.rename (untag fresh)) := by
  unfold scenario_pops
  rw [List.map_replicate]
  simp only [queue_call.rename, Option.map_some', untag_tagged,
    untag_int_elem fresh 0 (by omega)]

/-! ## Queue: the scenario of `main` -/

/-- The scenario of `main`, evaluated with the allocator bytes `tagged`. -/
theorem tagged_scenario_evaluation :
    (queue_run (queue_new 4) (scenario_pushes tagged)).size = 12 ∧
    (queue_run (queue_new 4) (scenario_pushes tagged)).capacity = 21 ∧
    queue_trace (queue_new 4) (scenario_pushes tagged ++ scenario_pops 13 tagged) =
      [(0, int_elem 0), (0, int_elem 1), (0, int_elem 2), (0, int_elem 3), (0, int_elem 4),
        (0, int_elem 5), (0, int_elem 6), (0, int_elem 7), (0, int_elem 8), (0, int_elem 9),
        (0, int_elem 10), (0, int_elem 11),
        (0, int_elem 0), (0, int_elem 1), (0, int_elem 2), (0, int_elem 3), (0, int_elem 4),
        (0, int_elem 5), (0, int_elem 6), (0, int_elem 7), (0, int_elem 8), (0, int_elem 9),
        (0, int_elem 10), (0, int_elem 11),
        (1, int_elem 0)] ∧
    (queue_run (queue_new 4) (scenario_pushes tagged ++ scenario_pops 5 tagged)).size = 7 ∧
    (queue_run (queue_new 4) (scenario_pushes tagged ++ scenario_pops 5 tagged)).capacity = 11 ∧
    queue_empty (queue_run (queue_new 4) (scenario_pushes tagged ++ scenario_pops 12 tagged)) =
      true := by
  decide

/-- The run of the scenario with the allocator bytes `fresh` is the renamed
run with the allocator bytes `tagged`. -/
theorem scenario_run_rename (count : Nat) (fresh : Nat → Byte) :
    queue_run (queue_new 4) (scenario_pushes fresh ++ scenario_pops count fresh) =
      queue_map (untag fresh)
        (queue_run (queue_new 4) (scenario_pushes tagged ++ scenario_pops count tagged)) := by
  rw [scenario_pushes_rename fresh, scenario_pops_rename count fresh, ← List.map_append,
    ← queue_run_map, queue_new_map _ _ rfl]

theorem queue_map_size (g : Byte → Byte) (q : queue) : (queue_map g q).size = q.size :=
  rfl

theorem queue_map_capacity (g : Byte → Byte) (q : queue) :
    (queue_map g q).capacity = q.capacity :=
  rfl

theorem queue_map_empty (g : Byte → Byte) (q : queue) :
    queue_empty (queue_map g q) = queue_empty q :=
  rfl

/-- The return codes and buffers of the scenario with the allocator bytes
`fresh` are the renamed ones of the scenario with the allocator bytes
`tagged`. -/
theorem scenario_trace_rename (count : Nat) (fresh : Nat → Byte) :
    queue_trace (queue_new 4) (scenario_pushes fresh ++ scenario_pops count fresh) =
      (queue_trace (queue_new 4) (scenario_pushes tagged ++ scenario_pops count tagged)).map
        (fun r => (r.1, r.2.map (untag fresh))) := by
  have h := queue_trace_map (untag fresh) (scenario_pushes tagged ++ scenario_pops count tagged)
    (queue_new 4)
  rw [queue_new_map _ _ rfl, List.map_append, ← scenario_pushes_rename fresh,
    ← scenario_pops_rename count fresh] at h
  exact h

/-- C17: on a new queue of four-byte elements, whatever bytes the allocator
hands out, every allocation succeeding: the pushes of 0 to 11 return 0 and
leave size 12 and capacity 21; five pops then return 0 and deliver 0, 1, 2,
3, 4, leaving size 7 and capacity 11; seven more pops return 0 and deliver 5
to 11 in order, leaving an empty queue, on which a further pop returns 1. -/
theorem queue_main_scenario (fresh : Nat → Byte) :
    queue_allocs_succeed (scenario_pushes fresh ++ scenario_pops 13 fresh) ∧
    (queue_run (queue_new 4) (scenario_pushes fresh)).size = 12 ∧
    (queue_run (queue_new 4) (scenario_pushes fresh)).capacity = 21 ∧
    queue_trace (queue_new 4) (scenario_pushes fresh ++ scenario_pops 13 fresh) =
      [(0, int_elem 0), (0, int_elem 1), (0, int_elem 2), (0, int_elem 3), (0, int_elem 4),
        (0, int_elem 5), (0, int_elem 6), (0, int_elem 7), (0, int_elem 8), (0, int_elem 9),
        (0, int_elem 10), (0, int_elem 11),
        (0, int_elem 0), (0, int_elem 1), (0, int_elem 2), (0, int_elem 3), (0, int_elem 4),
        (0, int_elem 5), (0, int_elem 6), (0, int_elem 7), (0, int_elem 8), (0, int_elem 9),
        (0, int_elem 10), (0, int_elem 11),
        (1, int_elem 0)] ∧
    (queue_run (queue_new 4) (scenario_pushes fresh ++ scenario_pops 5 fresh)).size = 7 ∧
    (queue_run (queue_new 4) (scenario_pushes fresh ++ scenario_pops 5 fresh)).capacity = 11 ∧
    queue_empty (queue_run (queue_new 4) (scenario_pushes fresh ++ scenario_pops 12 fresh)) =
      true := by
  obtain ⟨t1, t2, t3, t4, t5, t6⟩ := tagged_scenario_evaluation
  have hpush : queue_run (queue_new 4) (scenario_pushes fresh) =
      queue_map (untag fresh) (queue_run (queue_new 4) (scenario_pushes tagged)) := by
    rw [scenario_pushes_rename fresh, ← queue_run_map, queue_new_map _ _ rfl]
  refine ⟨?_, ?_, ?_, ?_, ?_, ?_, ?_⟩
  · intro c hc
    simp only [scenario_pushes, scenario_pops, List.mem_append, List.mem_map, List.mem_range,
      List.mem_replicate] at hc
    rcases hc with ⟨i, _, rfl⟩ | ⟨_, rfl⟩ <;> rfl
  · rw [hpush, queue_map_size, t1]
  · rw [hpush, queue_map_capacity, t2]
  · rw [scenario_trace_rename 13 fresh, t3]
    simp [untag_int_elem]
  · rw [scenario_run_rename 5 fresh, queue_map_size, t4]
  · rw [scenario_run_rename 5 fresh, queue_map_capacity, t5]
  · rw [scenario_run_rename 12 fresh, queue_map_empty, t6]

/-! ## Queue: accesses outside the block -/

/-- C21 (the code makes accesses outside the block in reachable states, all
allocations succeeding). Write: after push, pop, four pushes, pop the queue has
size 3, capacity 5 and head index 5; the next push does not grow and writes
slot 5. Read: after `drift_calls` the queue has size 4, capacity 5 and tail
index 5; the next pop does not recenter and reads slot 5. Move: after
`overrun_calls` and a pop the queue has size 3, capacity 5, tail index 3 and
head index 6; the next pop recenters and moves the slots 3 to 5. -/
theorem queue_accesses_outside_block :
    (queue_allocs_succeed (overrun_calls.take 7) ∧
      overrun_queue.size ≠ size_sub overrun_queue.capacity 1 ∧
      (queue_push overrun_queue [6] zeroed).1 = 0 ∧
      (queue_push overrun_queue [6] zeroed).2.capacity = overrun_queue.capacity ∧
      ¬ overrun_queue.headIdx < overrun_queue.capacity ∧
      ¬ in_block overrun_queue.data (overrun_queue.elem_size * overrun_queue.headIdx)
          overrun_queue.elem_size) ∧
    (queue_allocs_succeed drift_calls ∧
      drift_queue.size ≠ 0 ∧
      ¬ drift_queue.size ≤ drift_queue.capacity / 2 + (drift_queue.capacity &&& 1) ∧
      (queue_pop drift_queue [0] zeroed).1 = 0 ∧
      drift_queue.tailIdx = 5 ∧ drift_queue.capacity = 5 ∧
      ¬ drift_queue.tailIdx < drift_queue.capacity ∧
      ¬ in_block drift_queue.data (drift_queue.elem_size * drift_queue.tailIdx)
          drift_queue.elem_size) ∧
    (queue_allocs_succeed (overrun_calls ++ [.pop [0] zeroed]) ∧
      late_queue.size ≠ 0 ∧
      late_queue.size ≤ late_queue.capacity / 2 + (late_queue.capacity &&& 1) ∧
      late_queue.tailIdx = 3 ∧ late_queue.headIdx = 6 ∧ late_queue.capacity = 5 ∧
      ¬ late_queue.headIdx ≤ late_queue.capacity ∧
      ¬ in_block late_queue.data (late_queue.elem_size * late_queue.tailIdx)
          (late_queue.elem_size * size_sub late_queue.headIdx late_queue.tailIdx)) := by
  decide

end DataStructures
